import Mathlib

/-!
# Routing core of `reverseproxy` (`rule.go`)

A shallow embedding of `Rule.MatchesRequest`, `Rule.DestinationURL` and
`Rule.reqPath`, together with the Go standard-library functions they call
(`path.IsAbs`, `path.Clean`, `path.Join`).

Modelling conventions.

* Go strings are modelled by Lean `String`s (sequences of Unicode code
  points).  The path functions only inspect the ASCII bytes `/` and `.`,
  which never occur inside a multi-byte UTF-8 sequence, so working on code
  points instead of bytes does not change their result on valid UTF-8.
* `strings.ToLower` depends on the Unicode case tables of the Go runtime; it
  is taken as a parameter `ToLower`.
* `PathContains` and `RelativePath` are defined in a file of the repository
  that is not part of the sources at hand; `MatchesRequest` and
  `DestinationURL` take them as parameters.
* `req.URL` is a non-nil pointer for every request an HTTP server hands out;
  it is modelled by the URL value it points to.
-/

namespace reverseproxy

/-! ## Data model -/

/-- Go `url.Userinfo`. -/
structure Userinfo where
  username : String
  password : String
  passwordSet : Bool
  deriving DecidableEq, Repr

/-- Go `url.URL`: every field of the struct. -/
structure URL where
  Scheme : String
  Opaque : String
  User : Option Userinfo
  Host : String
  Path : String
  RawPath : String
  OmitHost : Bool
  ForceQuery : Bool
  RawQuery : String
  Fragment : String
  RawFragment : String
  deriving DecidableEq, Repr

/-- The part of Go `http.Request` a routing rule can see: the `Host`, the
`URL`, and (for the frame properties) method, headers and body. -/
structure Request where
  Method : String
  URL : URL
  Header : List (String × List String)
  Body : List Nat
  Host : String
  deriving DecidableEq, Repr

/-- The `Rule` struct of `rule.go`. -/
structure Rule where
  SourceHost : String
  SourcePath : String
  DestHost : String
  DestPath : String
  DestScheme : String
  CaseSensitiveHost : Bool
  CaseSensitivePath : Bool
  CleanRequestPath : Bool
  deriving DecidableEq, Repr

/-! ## Go standard library: package `path` -/

/-- Go `path.IsAbs`: `len(path) > 0 && path[0] == '/'`. -/
def IsAbs (path : String) : Bool :=
  match path.data with
  | [] => false
  | c :: _ => c == '/'

/-- The inner loop of the `..` case of `path.Clean`,
`for out.w > dotdot && out.index(out.w) != '/' { out.w-- }`,
started at write index `w`; returns the final write index. -/
def backScan (buf : List Char) (dotdot : Nat) : Nat → Nat
  | 0 => 0
  | w + 1 =>
    if dotdot < w + 1 ∧ buf.get? (w + 1) ≠ some '/' then backScan buf dotdot w else w + 1

/-- The main loop `for r < n { switch ... }` of `path.Clean`.  The unread
input `path[r:]` is the second list, the written prefix of the output buffer
is `out` (so `out.w = out.length`), and the first argument bounds the number
of iterations; every iteration reads at least one byte, so `path[r:].length`
iterations always suffice. -/
def cleanLoop (rooted : Bool) : Nat → List Char → List Char → Nat → List Char
  | 0, _, out, _ => out
  | _ + 1, [], out, _ => out
  | fuel + 1, c :: t, out, dotdot =>
    if c = '/' then
      -- empty path element
      cleanLoop rooted fuel t out dotdot
    else if c = '.' ∧ (t = [] ∨ t.head? = some '/') then
      -- . element
      cleanLoop rooted fuel t out dotdot
    else if c = '.' ∧ t.head? = some '.' ∧ (t.tail = [] ∨ t.tail.head? = some '/') then
      -- .. element: remove to last /
      if dotdot < out.length then
        -- can backtrack
        cleanLoop rooted fuel t.tail (out.take (backScan out dotdot (out.length - 1))) dotdot
      else if rooted = false then
        -- cannot backtrack, but not rooted, so append .. element
        let out1 := (if 0 < out.length then out ++ ['/'] else out) ++ ['.', '.']
        cleanLoop rooted fuel t.tail out1 out1.length
      else
        cleanLoop rooted fuel t.tail out dotdot
    else
      -- real path element: add slash if needed, then copy the element
      let out1 :=
        if (rooted = true ∧ out.length ≠ 1) ∨ (rooted = false ∧ out.length ≠ 0) then out ++ ['/']
        else out
      cleanLoop rooted fuel ((c :: t).dropWhile (fun x => x != '/'))
        (out1 ++ (c :: t).takeWhile (fun x => x != '/')) dotdot

/-- Go `path.Clean` on the characters of the path. -/
def cleanChars (path : List Char) : List Char :=
  match path with
  | [] => ['.']
  | c :: t =>
    let rooted : Bool := c == '/'
    let out :=
      if rooted then cleanLoop true (c :: t).length t ['/'] 1
      else cleanLoop false (c :: t).length (c :: t) [] 0
    -- Turn empty string into "."
    if out.length = 0 then ['.'] else out

/-- Go `path.Clean`. -/
def Clean (path : String) : String := String.mk (cleanChars path.data)

/-- Go `path.Join`: the non-empty-prefix-skipping concatenation of the
elements with `/`, cleaned; the empty string when all elements are empty. -/
def Join (elem : List String) : String :=
  if (elem.map String.length).sum = 0 then ""
  else
    Clean (String.mk (elem.foldl
      (fun buf e =>
        if buf ≠ [] ∨ e ≠ "" then (if buf ≠ [] then buf ++ ['/'] else buf) ++ e.data else buf)
      []))

/-! ## `rule.go` -/

/-- `Rule.reqPath`: the effective request path. -/
def Rule.reqPath (r : Rule) (req : Request) : String :=
  if r.CleanRequestPath then Clean req.URL.Path else req.URL.Path

/-- `Rule.MatchesRequest`. -/
def Rule.MatchesRequest (ToLower : String → String)
    (PathContains : String → String → Bool → Bool) (r : Rule) (req : Request) : Bool :=
  if (if !r.CaseSensitiveHost then ToLower r.SourceHost != ToLower req.Host
      else r.SourceHost != req.Host) then false
  else
    let reqPath := r.reqPath req
    if !IsAbs r.SourcePath then true
    else if !IsAbs reqPath then false
    else PathContains r.SourcePath reqPath r.CaseSensitivePath

/-- `Rule.DestinationURL`. -/
def Rule.DestinationURL (RelativePath : String → String → Bool → String)
    (r : Rule) (req : Request) : URL :=
  let newURL := { req.URL with Scheme := r.DestScheme, Host := r.DestHost }
  if IsAbs r.SourcePath then
    let rel := RelativePath r.SourcePath (r.reqPath req) r.CaseSensitivePath
    if r.DestPath.length = 0 then { newURL with Path := "/" ++ rel }
    else { newURL with Path := Join [r.DestPath, rel] }
  else newURL

/-! ## The two path helpers, and the words of the specification -/

/-- The characters of a path split at every `/`. -/
def splitSlash : List Char → List (List Char)
  | [] => [[]]
  | c :: t =>
    if c = '/' then [] :: splitSlash t
    else
      match splitSlash t with
      | [] => [[c]]
      | s :: rest => (c :: s) :: rest

/-- The `/`-delimited segments of a path, a trailing empty segment (the one
a trailing slash produces) being ignored. -/
def pathSegments (p : String) : List (List Char) :=
  let segs := splitSlash p.data
  if segs.getLast? = some [] then segs.dropLast else segs

/-- Modelled from the spec: `PathContains` (the Path Matcher) lives in a file
of the repository that is not among the sources.  It holds iff the segments of
`candidatePath` begin with the segments of `sourcePrefix`, a trailing empty
segment being ignored on both sides (so that `/` is contained in every
absolute path), the segments being case-folded with `ToLower` unless
`caseSensitive`. -/
def PathContains (ToLower : String → String) (sourcePrefix candidatePath : String)
    (caseSensitive : Bool) : Bool :=
  let fold : List Char → List Char :=
    fun seg => if caseSensitive then seg else (ToLower (String.mk seg)).data
  ((pathSegments sourcePrefix).map fold).isPrefixOf ((pathSegments candidatePath).map fold)

/-- Modelled from the spec: `RelativePath` (the Path Relativizer) lives in a
file of the repository that is not among the sources.  It returns the segments
of `candidatePath` that remain after the segments of `sourcePrefix`, joined
with `/`, without a leading separator. -/
def RelativePath (sourcePrefix candidatePath : String) (_caseSensitive : Bool) : String :=
  String.mk (List.intercalate ['/']
    ((pathSegments candidatePath).drop (pathSegments sourcePrefix).length))

/-- An ASCII lower-casing function: it agrees with Go `strings.ToLower` on
ASCII strings and serves as a concrete `ToLower` at concrete inputs. -/
def asciiLower (s : String) : String := String.mk (s.data.map Char.toLower)

/-- The host comparison of a rule, in the words of the specification: exact
when `CaseSensitiveHost`, after lower-casing both sides otherwise. -/
def hostAgrees (ToLower : String → String) (r : Rule) (req : Request) : Bool :=
  if r.CaseSensitiveHost then r.SourceHost == req.Host
  else ToLower r.SourceHost == ToLower req.Host

/-- The effective request path, in the words of the specification: the raw URL
path, or its cleaned form when `CleanRequestPath` is set. -/
def effectivePath (r : Rule) (req : Request) : String :=
  if r.CleanRequestPath then Clean req.URL.Path else req.URL.Path

/-- A request as an HTTP server hands it to the rule: `GET`, no headers, no
body, and a URL that carries only a path and a query string. -/
def serverRequest (host path query : String) : Request :=
  { Method := "GET",
    URL := { Scheme := "", Opaque := "", User := none, Host := "", Path := path, RawPath := "",
             OmitHost := false, ForceQuery := false, RawQuery := query, Fragment := "",
             RawFragment := "" },
    Header := [], Body := [], Host := host }

/-- The rule of the end-to-end scenarios: `a.com/api` is forwarded to
`http://b.internal/v2`, all flags being false. -/
def apiRule : Rule :=
  { SourceHost := "a.com", SourcePath := "/api", DestHost := "b.internal", DestPath := "/v2",
    DestScheme := "http", CaseSensitiveHost := false, CaseSensitivePath := false,
    CleanRequestPath := false }

/-! ## The shape of a cleaned path -/

/-- A proper path element: non-empty, free of `/`, and neither `.` nor `..`. -/
def Good (s : List Char) : Prop := s ≠ [] ∧ '/' ∉ s ∧ s ≠ ['.'] ∧ s ≠ ['.', '.']

instance Good.decidable (s : List Char) : Decidable (Good s) := by
  unfold Good
  infer_instance

/-- Every element written with a `/` in front of it. -/
def slashed : List (List Char) → List Char
  | [] => []
  | s :: rest => '/' :: (s ++ slashed rest)

/-- The elements separated by `/`. -/
def joined : List (List Char) → List Char
  | [] => []
  | s :: rest => s ++ slashed rest

/-- The output buffer that holds the elements `stk`: the elements separated
by `/`, after the leading `/` of a rooted path. -/
def render (rooted : Bool) (stk : List (List Char)) : List Char :=
  (if rooted then ['/'] else []) ++ joined stk

/-- The stack of `k` leading `..` elements. -/
def dots (k : Nat) : List (List Char) := List.replicate k ['.', '.']

/-- The main loop of `path.Clean` with as many iterations as unread bytes. -/
def run (rooted : Bool) (rest out : List Char) (dotdot : Nat) : List Char :=
  cleanLoop rooted rest.length rest out dotdot

/-- The loop invariant of `path.Clean`: the buffer holds `k` leading `..`
elements (none when rooted) followed by the proper elements `segs`, and
`dotdot` is the length of the part that holds the `..` elements. -/
def Inv (rooted : Bool) (k : Nat) (segs : List (List Char)) (out : List Char) (dd : Nat) :
    Prop :=
  out = render rooted (dots k ++ segs) ∧ dd = (render rooted (dots k)).length ∧
    (rooted = true → k = 0) ∧ ∀ s ∈ segs, Good s


/-- The request `req` with the path of its URL replaced by `p`. -/
def withPath (req : Request) (p : String) : Request :=
  { req with URL := { req.URL with Path := p } }

/-- Duplicate separators collapsed, in the words of the specification: every
`/` that is directly followed by another `/` is dropped. -/
def collapseSlashes : List Char → List Char
  | [] => []
  | c :: t => if c = '/' ∧ t.head? = some '/' then collapseSlashes t else c :: collapseSlashes t

/-- The join of the specification: `DestPath`, one `/`, the remainder, with
duplicate separators collapsed. -/
def joinCollapsed (destPath rel : String) : String :=
  String.mk (collapseSlashes (destPath.data ++ '/' :: rel.data))

/-- The non-empty segments of a path. -/
def elems (x : List Char) : List (List Char) := (splitSlash x).filter (fun s => s ≠ [])

/-- No segment of the path is `.` or `..`. -/
def DotFree (x : List Char) : Prop := ∀ s ∈ splitSlash x, s ≠ ['.'] ∧ s ≠ ['.', '.']

instance DotFree.decidable (x : List Char) : Decidable (DotFree x) := by
  unfold DotFree
  infer_instance

/-- No segment of the path is `..`. -/
def NoDotDot (x : List Char) : Prop := ∀ s ∈ splitSlash x, s ≠ ['.', '.']

instance NoDotDot.decidable (x : List Char) : Decidable (NoDotDot x) := by
  unfold NoDotDot
  infer_instance

/-! # Properties -/

/-! ## Basic facts -/

theorem length_eq_zero_iff (s : String) : s.length = 0 ↔ s = "" := by
  cases s with
  | mk l =>
    cases l with
    | nil => simp [String.length]
    | cons c t =>
      simp only [String.length, List.length_cons, Nat.succ_ne_zero, false_iff]
      intro h
      have := congrArg String.data h
      simp at this

theorem hostTest_eq (ToLower : String → String) (r : Rule) (req : Request) :
    (if !r.CaseSensitiveHost then ToLower r.SourceHost != ToLower req.Host
      else r.SourceHost != req.Host) = !hostAgrees ToLower r req := by
  unfold hostAgrees
  cases r.CaseSensitiveHost <;> simp [bne]

theorem reqPath_eq (r : Rule) (req : Request) : r.reqPath req = effectivePath r req := rfl

/-- `MatchesRequest` as a conjunction of its three tests. -/
theorem MatchesRequest_eq (ToLower : String → String)
    (PC : String → String → Bool → Bool) (r : Rule) (req : Request) :
    r.MatchesRequest ToLower PC req =
      (hostAgrees ToLower r req &&
        (!IsAbs r.SourcePath ||
          (IsAbs (effectivePath r req) &&
            PC r.SourcePath (effectivePath r req) r.CaseSensitivePath))) := by
  unfold Rule.MatchesRequest
  rw [hostTest_eq, reqPath_eq]
  rcases Bool.eq_false_or_eq_true (hostAgrees ToLower r req) with h1 | h1 <;>
    rcases Bool.eq_false_or_eq_true (IsAbs r.SourcePath) with h2 | h2 <;>
    rcases Bool.eq_false_or_eq_true (IsAbs (effectivePath r req)) with h3 | h3 <;>
    simp [h1, h2, h3]

/-! ## Matching -/

/-- C1: when the host comparison fails (exact comparison if `CaseSensitiveHost`,
comparison of the lower-cased hosts otherwise), `MatchesRequest` returns false,
whatever the paths and the path flags are. -/
theorem MatchesRequest_false_of_host_mismatch (ToLower : String → String)
    (PC : String → String → Bool → Bool) (r : Rule) (req : Request)
    (h : hostAgrees ToLower r req = false) :
    r.MatchesRequest ToLower PC req = false := by
  rw [MatchesRequest_eq, h, Bool.false_and]

theorem MatchesRequest_false_of_host_mismatch_witness :
    hostAgrees asciiLower apiRule (serverRequest "B.com" "/api/users" "x=1") = false ∧
      apiRule.MatchesRequest asciiLower (PathContains asciiLower)
        (serverRequest "B.com" "/api/users" "x=1") = false :=
  ⟨by decide, MatchesRequest_false_of_host_mismatch _ _ _ _ (by decide)⟩

/-- C2: a rule whose `SourcePath` is not absolute matches a request exactly
when the host comparison succeeds; the request path plays no role. -/
theorem MatchesRequest_iff_host_of_relative_source (ToLower : String → String)
    (PC : String → String → Bool → Bool) (r : Rule) (req : Request)
    (h : IsAbs r.SourcePath = false) :
    r.MatchesRequest ToLower PC req = true ↔ hostAgrees ToLower r req = true := by
  rw [MatchesRequest_eq, h]
  simp

theorem MatchesRequest_iff_host_of_relative_source_witness :
    IsAbs ({ apiRule with SourcePath := "" }).SourcePath = false ∧
      (({ apiRule with SourcePath := "" }).MatchesRequest asciiLower (fun _ _ _ => false)
          (serverRequest "A.com" "../x//y" "") = true ↔
        hostAgrees asciiLower { apiRule with SourcePath := "" }
          (serverRequest "A.com" "../x//y" "") = true) :=
  ⟨by decide, MatchesRequest_iff_host_of_relative_source _ _ _ _ (by decide)⟩

/-- C3: for an absolute `SourcePath`, a matching host and an absolute effective
request path, `MatchesRequest` is exactly
`PathContains(SourcePath, effectivePath, CaseSensitivePath)`; in particular, if
`PathContains("/api", "/other", false)` is false then a rule for `a.com` with
source path `/api` does not match a request to `a.com/other`. -/
theorem MatchesRequest_eq_PathContains (ToLower : String → String)
    (PC : String → String → Bool → Bool) (r : Rule) (req : Request)
    (hsrc : IsAbs r.SourcePath = true) (hhost : hostAgrees ToLower r req = true)
    (hpath : IsAbs (effectivePath r req) = true) :
    r.MatchesRequest ToLower PC req =
        PC r.SourcePath (effectivePath r req) r.CaseSensitivePath ∧
      (PC "/api" "/other" false = false →
        ∀ (r' : Rule) (req' : Request), r'.SourceHost = "a.com" → r'.SourcePath = "/api" →
          r'.CaseSensitivePath = false → req'.Host = "a.com" → req'.URL.Path = "/other" →
          r'.MatchesRequest ToLower PC req' = false) := by
  constructor
  · rw [MatchesRequest_eq, hsrc, hhost, hpath]
    simp
  · intro hpc r' req' h1 h2 h3 _ h5
    have hclean : Clean "/other" = "/other" := by decide
    have heff : effectivePath r' req' = "/other" := by
      unfold effectivePath
      rw [h5, hclean]
      simp
    have habs : IsAbs "/api" = true := by decide
    rw [MatchesRequest_eq, heff, h2, h3, hpc, habs]
    simp

theorem MatchesRequest_eq_PathContains_witness :
    apiRule.MatchesRequest asciiLower (PathContains asciiLower)
        (serverRequest "A.com" "/other" "") =
        PathContains asciiLower apiRule.SourcePath
          (effectivePath apiRule (serverRequest "A.com" "/other" "")) apiRule.CaseSensitivePath ∧
      (PathContains asciiLower "/api" "/other" false = false →
        ∀ (r' : Rule) (req' : Request), r'.SourceHost = "a.com" → r'.SourcePath = "/api" →
          r'.CaseSensitivePath = false → req'.Host = "a.com" → req'.URL.Path = "/other" →
          r'.MatchesRequest asciiLower (PathContains asciiLower) req' = false) :=
  MatchesRequest_eq_PathContains asciiLower (PathContains asciiLower) apiRule
    (serverRequest "A.com" "/other" "") (by decide) (by decide) (by decide)

/-- C4: for an absolute `SourcePath`, a request whose effective path is not
absolute is never matched: the result is false for every host and for every
`PathContains`, which is not consulted. -/
theorem MatchesRequest_false_of_relative_request (ToLower : String → String)
    (PC : String → String → Bool → Bool) (r : Rule) (req : Request)
    (hsrc : IsAbs r.SourcePath = true) (hpath : IsAbs (effectivePath r req) = false) :
    r.MatchesRequest ToLower PC req = false := by
  rw [MatchesRequest_eq, hsrc, hpath]
  simp

theorem MatchesRequest_false_of_relative_request_witness :
    IsAbs apiRule.SourcePath = true ∧
      IsAbs (effectivePath apiRule (serverRequest "a.com" "api/users" "")) = false ∧
      apiRule.MatchesRequest asciiLower (fun _ _ _ => true)
        (serverRequest "a.com" "api/users" "") = false :=
  ⟨by decide, by decide,
    MatchesRequest_false_of_relative_request _ _ _ _ (by decide) (by decide)⟩

/-! ## The destination URL -/

theorem Join_pair (d rel : String) (hd : d ≠ "") :
    Join [d, rel] = Clean (String.mk (d.data ++ '/' :: rel.data)) := by
  have hlen : d.length ≠ 0 := fun h => hd ((length_eq_zero_iff d).1 h)
  have hdata : d.data ≠ [] := by
    intro h
    apply hlen
    simp [String.length, h]
  unfold Join
  simp [hlen, hd, hdata]

/-- The path of the destination URL, case by case. -/
theorem DestinationURL_Path (RP : String → String → Bool → String) (r : Rule) (req : Request) :
    (r.DestinationURL RP req).Path =
      if IsAbs r.SourcePath then
        if r.DestPath = "" then "/" ++ RP r.SourcePath (effectivePath r req) r.CaseSensitivePath
        else Join [r.DestPath, RP r.SourcePath (effectivePath r req) r.CaseSensitivePath]
      else req.URL.Path := by
  unfold Rule.DestinationURL
  rw [reqPath_eq]
  by_cases h1 : IsAbs r.SourcePath = true
  · by_cases h2 : r.DestPath = ""
    · simp [h1, h2]
    · have h3 : r.DestPath.length ≠ 0 := fun h => h2 ((length_eq_zero_iff _).1 h)
      simp [h1, h2, h3]
  · simp [h1]

/-- C5: end to end, for the rule `a.com/api → http://b.internal/v2` and the
request `a.com/api/users?x=1`: if `PathContains("/api", "/api/users", false)`
is true and `RelativePath("/api", "/api/users", false)` is `"users"`, the rule
matches and the destination URL has scheme `http`, host `b.internal`, path
`/v2/users` and query `x=1`, every other component being empty. -/
theorem apiRule_end_to_end (ToLower : String → String)
    (PC : String → String → Bool → Bool) (RP : String → String → Bool → String)
    (hPC : PC "/api" "/api/users" false = true)
    (hRP : RP "/api" "/api/users" false = "users") :
    apiRule.MatchesRequest ToLower PC (serverRequest "a.com" "/api/users" "x=1") = true ∧
      apiRule.DestinationURL RP (serverRequest "a.com" "/api/users" "x=1") =
        { Scheme := "http", Opaque := "", User := none, Host := "b.internal",
          Path := "/v2/users", RawPath := "", OmitHost := false, ForceQuery := false,
          RawQuery := "x=1", Fragment := "", RawFragment := "" } := by
  have heff : effectivePath apiRule (serverRequest "a.com" "/api/users" "x=1") = "/api/users" :=
    by decide
  constructor
  · rw [MatchesRequest_eq, heff]
    have h1 : hostAgrees ToLower apiRule (serverRequest "a.com" "/api/users" "x=1") = true := by
      simp [hostAgrees, apiRule, serverRequest]
    have h2 : IsAbs apiRule.SourcePath = true := by decide
    have h3 : IsAbs "/api/users" = true := by decide
    have h4 : PC apiRule.SourcePath "/api/users" apiRule.CaseSensitivePath = true := hPC
    rw [h1, h2, h3, h4]
    rfl
  · have hjoin : Join ["/v2", "users"] = "/v2/users" := by decide
    have h4 : RP apiRule.SourcePath "/api/users" apiRule.CaseSensitivePath = "users" := hRP
    unfold Rule.DestinationURL
    rw [reqPath_eq, heff, h4]
    have h5 : IsAbs "/api" = true := by decide
    have h6 : "/v2".length ≠ 0 := by decide
    simp [apiRule, serverRequest, hjoin, h5, h6]

theorem apiRule_end_to_end_witness :
    apiRule.MatchesRequest asciiLower (PathContains asciiLower)
        (serverRequest "a.com" "/api/users" "x=1") = true ∧
      apiRule.DestinationURL RelativePath (serverRequest "a.com" "/api/users" "x=1") =
        { Scheme := "http", Opaque := "", User := none, Host := "b.internal",
          Path := "/v2/users", RawPath := "", OmitHost := false, ForceQuery := false,
          RawQuery := "x=1", Fragment := "", RawFragment := "" } :=
  apiRule_end_to_end asciiLower (PathContains asciiLower) RelativePath (by decide) (by decide)

/-- C6: the destination URL has the rule's `DestScheme` and `DestHost`, and
every component other than the path (opaque part, user info, raw path, the
two flags, query string, fragment and raw fragment) is the one of the
request's URL. -/
theorem DestinationURL_frame (RP : String → String → Bool → String) (r : Rule) (req : Request) :
    (r.DestinationURL RP req).Scheme = r.DestScheme ∧
      (r.DestinationURL RP req).Host = r.DestHost ∧
      (r.DestinationURL RP req).Opaque = req.URL.Opaque ∧
      (r.DestinationURL RP req).User = req.URL.User ∧
      (r.DestinationURL RP req).RawPath = req.URL.RawPath ∧
      (r.DestinationURL RP req).OmitHost = req.URL.OmitHost ∧
      (r.DestinationURL RP req).ForceQuery = req.URL.ForceQuery ∧
      (r.DestinationURL RP req).RawQuery = req.URL.RawQuery ∧
      (r.DestinationURL RP req).Fragment = req.URL.Fragment ∧
      (r.DestinationURL RP req).RawFragment = req.URL.RawFragment := by
  unfold Rule.DestinationURL
  by_cases h1 : IsAbs r.SourcePath = true <;> by_cases h2 : r.DestPath.length = 0 <;>
    simp [h1, h2]

/-- C7: for an absolute `SourcePath` and an empty `DestPath`, the destination
path is `/` followed by `RelativePath(SourcePath, effectivePath,
CaseSensitivePath)`; e.g. for source path `/api`, request path `/api/users`
and remainder `users` the destination path is `/users`. -/
theorem DestinationURL_Path_of_empty_DestPath (RP : String → String → Bool → String)
    (r : Rule) (req : Request) (hsrc : IsAbs r.SourcePath = true) (hdst : r.DestPath = "") :
    (r.DestinationURL RP req).Path =
        "/" ++ RP r.SourcePath (effectivePath r req) r.CaseSensitivePath ∧
      ∀ (r' : Rule) (req' : Request), r'.SourcePath = "/api" → r'.DestPath = "" →
        req'.URL.Path = "/api/users" →
        RP "/api" "/api/users" r'.CaseSensitivePath = "users" →
        (r'.DestinationURL RP req').Path = "/users" := by
  constructor
  · rw [DestinationURL_Path, hsrc, hdst]
    simp
  · intro r' req' h1 h2 h3 h4
    have hclean : Clean "/api/users" = "/api/users" := by decide
    have heff : effectivePath r' req' = "/api/users" := by
      unfold effectivePath
      rw [h3, hclean]
      simp
    have habs : IsAbs "/api" = true := by decide
    rw [DestinationURL_Path, heff, h1, h2, h4, habs]
    simp only [if_true]
    decide

theorem DestinationURL_Path_of_empty_DestPath_witness :
    (({ apiRule with DestPath := "" }).DestinationURL RelativePath
          (serverRequest "a.com" "/api/users" "")).Path =
        "/" ++ RelativePath ({ apiRule with DestPath := "" }).SourcePath
          (effectivePath { apiRule with DestPath := "" } (serverRequest "a.com" "/api/users" ""))
          ({ apiRule with DestPath := "" }).CaseSensitivePath ∧
      ∀ (r' : Rule) (req' : Request), r'.SourcePath = "/api" → r'.DestPath = "" →
        req'.URL.Path = "/api/users" →
        RelativePath "/api" "/api/users" r'.CaseSensitivePath = "users" →
        (r'.DestinationURL RelativePath req').Path = "/users" :=
  DestinationURL_Path_of_empty_DestPath RelativePath { apiRule with DestPath := "" }
    (serverRequest "a.com" "/api/users" "") (by decide) (by decide)

/-- C9: for a `SourcePath` that is not absolute, the destination path is the
raw path of the request's URL, whatever `DestPath` and `CleanRequestPath` are:
the destination URL is the request's URL with only scheme and host replaced. -/
theorem DestinationURL_Path_of_relative_source (RP : String → String → Bool → String)
    (r : Rule) (req : Request) (hsrc : IsAbs r.SourcePath = false) :
    (r.DestinationURL RP req).Path = req.URL.Path ∧
      r.DestinationURL RP req =
        { req.URL with Scheme := r.DestScheme, Host := r.DestHost } := by
  unfold Rule.DestinationURL
  simp [hsrc]

theorem DestinationURL_Path_of_relative_source_witness :
    (({ apiRule with SourcePath := "api", CleanRequestPath := true }).DestinationURL RelativePath
          (serverRequest "a.com" "/a/../b" "")).Path =
        (serverRequest "a.com" "/a/../b" "").URL.Path ∧
      ({ apiRule with SourcePath := "api", CleanRequestPath := true }).DestinationURL RelativePath
          (serverRequest "a.com" "/a/../b" "") =
        { (serverRequest "a.com" "/a/../b" "").URL with
          Scheme := ({ apiRule with SourcePath := "api", CleanRequestPath := true }).DestScheme,
          Host := ({ apiRule with SourcePath := "api", CleanRequestPath := true }).DestHost } :=
  DestinationURL_Path_of_relative_source RelativePath
    { apiRule with SourcePath := "api", CleanRequestPath := true }
    (serverRequest "a.com" "/a/../b" "") (by decide)

/-! ## `path.Clean`: the loop -/

theorem dropWhile_length_le (c : Char) (t : List Char) (hc : c ≠ '/') :
    ((c :: t).dropWhile (fun x => x != '/')).length ≤ t.length := by
  have h : (c :: t).dropWhile (fun x => x != '/') = t.dropWhile (fun x => x != '/') := by
    simp [List.dropWhile_cons, hc]
  rw [h]
  exact (List.dropWhile_suffix _).length_le

theorem cleanLoop_fuel (rooted : Bool) :
    ∀ (f g : Nat) (rest out : List Char) (dd : Nat), rest.length ≤ f → rest.length ≤ g →
      cleanLoop rooted f rest out dd = cleanLoop rooted g rest out dd := by
  intro f
  induction f with
  | zero =>
    intro g rest out dd hf _
    have hr : rest = [] := List.length_eq_zero.1 (Nat.le_zero.1 hf)
    subst hr
    cases g <;> simp [cleanLoop]
  | succ f ih =>
    intro g rest out dd hf hg
    cases rest with
    | nil => cases g <;> simp [cleanLoop]
    | cons c t =>
      cases g with
      | zero => simp at hg
      | succ g =>
        have hft : t.length ≤ f := by simpa using hf
        have hgt : t.length ≤ g := by simpa using hg
        have htail : t.tail.length ≤ t.length := by simp
        simp only [cleanLoop]
        split
        · exact ih g t out dd hft hgt
        · split
          · exact ih g t out dd hft hgt
          · split
            · split
              · exact ih g _ _ _ (le_trans htail hft) (le_trans htail hgt)
              · split
                · exact ih g _ _ _ (le_trans htail hft) (le_trans htail hgt)
                · exact ih g _ _ _ (le_trans htail hft) (le_trans htail hgt)
            · rename_i hc _ _
              have hd := dropWhile_length_le c t hc
              exact ih g _ _ _ (le_trans hd hft) (le_trans hd hgt)

theorem cleanLoop_eq_run (rooted : Bool) (f : Nat) (rest out : List Char) (dd : Nat)
    (h : rest.length ≤ f) : cleanLoop rooted f rest out dd = run rooted rest out dd :=
  cleanLoop_fuel rooted f rest.length rest out dd h (le_refl _)

theorem run_nil (rooted : Bool) (out : List Char) (dd : Nat) : run rooted [] out dd = out := by
  simp [run, cleanLoop]

/-- One iteration of the loop of `path.Clean`. -/
theorem run_cons (rooted : Bool) (c : Char) (t out : List Char) (dd : Nat) :
    run rooted (c :: t) out dd =
      if c = '/' then run rooted t out dd
      else if c = '.' ∧ (t = [] ∨ t.head? = some '/') then run rooted t out dd
      else if c = '.' ∧ t.head? = some '.' ∧ (t.tail = [] ∨ t.tail.head? = some '/') then
        if dd < out.length then
          run rooted t.tail (out.take (backScan out dd (out.length - 1))) dd
        else if rooted = false then
          run rooted t.tail ((if 0 < out.length then out ++ ['/'] else out) ++ ['.', '.'])
            ((if 0 < out.length then out ++ ['/'] else out) ++ ['.', '.']).length
        else run rooted t.tail out dd
      else
        run rooted ((c :: t).dropWhile (fun x => x != '/'))
          ((if (rooted = true ∧ out.length ≠ 1) ∨ (rooted = false ∧ out.length ≠ 0)
              then out ++ ['/'] else out) ++ (c :: t).takeWhile (fun x => x != '/')) dd := by
  have htail : t.tail.length ≤ t.length := by simp
  rw [run]
  simp only [List.length_cons, cleanLoop]
  split
  · rfl
  · split
    · rfl
    · split
      · split
        · exact cleanLoop_eq_run _ _ _ _ _ htail
        · split
          · exact cleanLoop_eq_run _ _ _ _ _ htail
          · exact cleanLoop_eq_run _ _ _ _ _ htail
      · rename_i hc _ _
        exact cleanLoop_eq_run _ _ _ _ _ (dropWhile_length_le c t hc)

/-! ## `path.Clean`: backtracking over the last element -/

theorem backScan_skip (buf : List Char) (dd m : Nat) (hdd : dd ≤ m) :
    ∀ n, (∀ i, i < n → ∃ c, buf.get? (m + 1 + i) = some c ∧ c ≠ '/') →
      backScan buf dd (m + n) = backScan buf dd m := by
  intro n
  induction n with
  | zero => intro _; rfl
  | succ n ih =>
    intro h
    obtain ⟨c, hc, hne⟩ := h n (Nat.lt_succ_self n)
    have hidx : m + (n + 1) = (m + n) + 1 := by omega
    have hidx2 : m + 1 + n = m + n + 1 := by omega
    rw [hidx, backScan]
    rw [hidx2] at hc
    have hcond : dd < m + n + 1 ∧ buf.get? (m + n + 1) ≠ some '/' := by
      refine ⟨by omega, ?_⟩
      rw [hc]
      intro heq
      exact hne (Option.some.inj heq)
    rw [if_pos hcond]
    exact ih (fun i hi => h i (Nat.lt_succ_of_lt hi))

theorem backScan_stop (buf : List Char) (dd m : Nat)
    (h : ¬ dd < m ∨ buf.get? m = some '/') : backScan buf dd m = m := by
  cases m with
  | zero => rfl
  | succ m =>
    rw [backScan]
    have hcond : ¬ (dd < m + 1 ∧ buf.get? (m + 1) ≠ some '/') := by
      intro hc
      rcases h with h | h
      · exact h hc.1
      · exact hc.2 h
    rw [if_neg hcond]

theorem get?_tail_of_not_mem (P s : List Char) (hs : '/' ∉ s) (i : Nat) (hi : i < s.length) :
    ∃ c, (P ++ s).get? (P.length + i) = some c ∧ c ≠ '/' := by
  refine ⟨s.get ⟨i, hi⟩, ?_, ?_⟩
  · simp [List.getElem?_append_right, List.getElem?_eq_getElem hi]
  · intro h
    apply hs
    rw [← h]
    exact List.get_mem s i hi

/-- Backtracking over an element that follows a separator. -/
theorem backScan_after_slash (P s : List Char) (dd : Nat) (hdd : dd ≤ P.length)
    (hs : '/' ∉ s) :
    backScan (P ++ '/' :: s) dd ((P ++ '/' :: s).length - 1) = P.length := by
  have hlen : (P ++ '/' :: s).length - 1 = P.length + s.length := by simp
  rw [hlen, backScan_skip _ dd P.length hdd s.length]
  · apply backScan_stop
    right
    rw [List.get?_eq_getElem?, List.getElem?_append_right (le_refl _), Nat.sub_self]
    simp
  · intro i hi
    have h := get?_tail_of_not_mem (P ++ ['/']) s hs i hi
    simpa [Nat.add_assoc] using h

/-- Backtracking over the first element, down to `dotdot`. -/
theorem backScan_to_dotdot (P s : List Char) (hne : s ≠ []) (hs : '/' ∉ s) :
    backScan (P ++ s) P.length ((P ++ s).length - 1) = P.length := by
  cases s with
  | nil => exact absurd rfl hne
  | cons c t =>
    have hlen : (P ++ c :: t).length - 1 = P.length + t.length := by simp
    rw [hlen, backScan_skip _ P.length P.length (le_refl _) t.length]
    · apply backScan_stop
      left
      omega
    · intro i hi
      have ht : '/' ∉ t := fun h => hs (List.mem_cons_of_mem _ h)
      have h := get?_tail_of_not_mem (P ++ [c]) t ht i hi
      simpa [Nat.add_assoc] using h

/-! ## `path.Clean`: the buffer as a stack of elements -/

theorem slashed_append (a b : List (List Char)) : slashed (a ++ b) = slashed a ++ slashed b := by
  induction a with
  | nil => rfl
  | cons s rest ih => simp [slashed, ih]

theorem joined_append (a b : List (List Char)) (ha : a ≠ []) :
    joined (a ++ b) = joined a ++ slashed b := by
  cases a with
  | nil => exact absurd rfl ha
  | cons s rest => simp [joined, slashed_append]

theorem slashed_nil_or_head (stk : List (List Char)) :
    slashed stk = [] ∨ (slashed stk).head? = some '/' := by
  cases stk with
  | nil => left; rfl
  | cons s rest => right; rfl

theorem joined_ne_nil (stk : List (List Char)) (hne : stk ≠ []) (h : ∀ s ∈ stk, s ≠ []) :
    joined stk ≠ [] := by
  cases stk with
  | nil => exact absurd rfl hne
  | cons s rest =>
    have hs : s ≠ [] := h s (List.mem_cons_self _ _)
    simp [joined, hs]

theorem render_nil (rooted : Bool) : render rooted [] = if rooted then ['/'] else [] := by
  simp [render, joined]

theorem render_push (rooted : Bool) (stk : List (List Char)) (s : List Char) (hne : stk ≠ []) :
    render rooted (stk ++ [s]) = render rooted stk ++ '/' :: s := by
  simp [render, joined_append stk [s] hne, slashed]

theorem render_single (rooted : Bool) (s : List Char) :
    render rooted [s] = render rooted [] ++ s := by
  simp [render, joined, slashed]

theorem render_length_le (rooted : Bool) (a b : List (List Char)) :
    (render rooted a).length ≤ (render rooted (a ++ b)).length ∨ a = [] := by
  by_cases ha : a = []
  · right; exact ha
  · left
    simp [render, joined_append a b ha]

theorem render_length_nil_le (rooted : Bool) (b : List (List Char)) :
    (render rooted []).length ≤ (render rooted b).length := by
  simp [render, joined]

theorem render_append_length_le (rooted : Bool) (a b : List (List Char)) :
    (render rooted a).length ≤ (render rooted (a ++ b)).length := by
  rcases render_length_le rooted a b with h | h
  · exact h
  · subst h
    exact render_length_nil_le rooted _

theorem dots_ne_nil_mem (k : Nat) : ∀ s ∈ dots k, s ≠ [] := by
  intro s hs
  have := List.eq_of_mem_replicate hs
  rw [this]
  simp

theorem Good.ne_nil {s : List Char} (h : Good s) : s ≠ [] := h.1

theorem stack_mem_ne_nil (k : Nat) (segs : List (List Char)) (h : ∀ s ∈ segs, Good s) :
    ∀ s ∈ dots k ++ segs, s ≠ [] := by
  intro s hs
  rcases List.mem_append.1 hs with h1 | h1
  · exact dots_ne_nil_mem k s h1
  · exact (h s h1).1

theorem dots_succ (k : Nat) : dots (k + 1) = dots k ++ [['.', '.']] := by
  simp [dots, List.replicate_succ']

theorem dots_zero : dots 0 = [] := rfl

/-- The buffer is longer than `dotdot` exactly when it holds a proper element. -/
theorem Inv.length_lt_iff {rooted : Bool} {k : Nat} {segs : List (List Char)}
    {out : List Char} {dd : Nat} (h : Inv rooted k segs out dd) :
    dd < out.length ↔ segs ≠ [] := by
  obtain ⟨hout, hdd, _, hgood⟩ := h
  constructor
  · intro hlt hs
    subst hs
    rw [hout, hdd] at hlt
    simp at hlt
  · intro hs
    rw [hout, hdd]
    by_cases hk : dots k = []
    · rw [hk]
      have hj := joined_ne_nil segs hs (fun s h => (hgood s h).1)
      have hpos : 0 < (joined segs).length := List.length_pos.2 hj
      simp [render, joined]
      exact hpos
    · have hsl : slashed segs ≠ [] := by
        cases segs with
        | nil => exact absurd rfl hs
        | cons s rest => simp [slashed]
      have hpos : 0 < (slashed segs).length := List.length_pos.2 hsl
      simp [render, joined_append _ segs hk]
      exact hpos

/-- The "add slash if needed" test holds exactly when the buffer holds an element. -/
theorem Inv.need_slash_iff {rooted : Bool} {k : Nat} {segs : List (List Char)}
    {out : List Char} {dd : Nat} (h : Inv rooted k segs out dd) :
    ((rooted = true ∧ out.length ≠ 1) ∨ (rooted = false ∧ out.length ≠ 0)) ↔
      dots k ++ segs ≠ [] := by
  obtain ⟨hout, _, _, hgood⟩ := h
  by_cases hstk : dots k ++ segs = []
  · rw [hout, hstk]
    cases rooted <;> simp [render, joined]
  · have hj := joined_ne_nil _ hstk (stack_mem_ne_nil k segs hgood)
    have hpos : 0 < (joined (dots k ++ segs)).length := List.length_pos.2 hj
    rw [hout]
    cases rooted
    · simp [render, hstk]
      exact hj
    · simp [render, hstk]
      exact hj

/-! ## `path.Clean`: the invariant along the three kinds of step -/

/-- Copying a proper element pushes it on the stack. -/
theorem Inv.push {rooted : Bool} {k : Nat} {segs : List (List Char)}
    {out : List Char} {dd : Nat} (h : Inv rooted k segs out dd) (s : List Char) (hs : Good s) :
    Inv rooted k (segs ++ [s])
      ((if (rooted = true ∧ out.length ≠ 1) ∨ (rooted = false ∧ out.length ≠ 0)
          then out ++ ['/'] else out) ++ s) dd := by
  have hneed := h.need_slash_iff
  obtain ⟨hout, hdd, hroot, hgood⟩ := h
  refine ⟨?_, hdd, hroot, ?_⟩
  · by_cases hstk : dots k ++ segs = []
    · have hno : ¬ ((rooted = true ∧ out.length ≠ 1) ∨ (rooted = false ∧ out.length ≠ 0)) :=
        fun hc => hneed.1 hc hstk
      rw [if_neg hno, ← List.append_assoc, hstk, hout, hstk, List.nil_append, render_single]
    · rw [if_pos (hneed.2 hstk), ← List.append_assoc, render_push _ _ _ hstk, hout]
      simp
  · intro x hx
    rcases List.mem_append.1 hx with h1 | h1
    · exact hgood x h1
    · rw [List.mem_singleton.1 h1]
      exact hs

/-- Backtracking pops the last proper element off the stack. -/
theorem Inv.pop {rooted : Bool} {k : Nat} {init : List (List Char)} {s : List Char}
    {out : List Char} {dd : Nat} (h : Inv rooted k (init ++ [s]) out dd) :
    Inv rooted k init (out.take (backScan out dd (out.length - 1))) dd := by
  obtain ⟨hout, hdd, hroot, hgood⟩ := h
  have hs : Good s := hgood s (by simp)
  refine ⟨?_, hdd, hroot, fun x hx => hgood x (List.mem_append_left _ hx)⟩
  by_cases hstk : dots k ++ init = []
  · have hk : dots k = [] := (List.append_eq_nil.1 hstk).1
    have hi : init = [] := (List.append_eq_nil.1 hstk).2
    have hout2 : out = render rooted [] ++ s := by
      rw [hout, hk, hi, List.nil_append, List.nil_append, render_single]
    have hdd2 : dd = (render rooted []).length := by rw [hdd, hk]
    rw [hstk, hout2, hdd2, backScan_to_dotdot _ s hs.1 hs.2.1]
    simp
  · have hout2 : out = render rooted (dots k ++ init) ++ '/' :: s := by
      rw [hout, ← List.append_assoc, render_push _ _ _ hstk]
    have hle : dd ≤ (render rooted (dots k ++ init)).length := by
      rw [hdd]
      exact render_append_length_le rooted _ _
    rw [hout2, backScan_after_slash _ s dd hle hs.2.1]
    simp

/-- A `..` that cannot backtrack in an unrooted path is pushed as an element. -/
theorem Inv.push_dots {k : Nat} {out : List Char} {dd : Nat} (h : Inv false k [] out dd) :
    Inv false (k + 1) []
      ((if 0 < out.length then out ++ ['/'] else out) ++ ['.', '.'])
      ((if 0 < out.length then out ++ ['/'] else out) ++ ['.', '.']).length := by
  obtain ⟨hout, _, _, _⟩ := h
  have hout2 : (if 0 < out.length then out ++ ['/'] else out) ++ ['.', '.'] =
      render false (dots (k + 1) ++ []) := by
    rw [List.append_nil] at hout
    rw [List.append_nil, dots_succ]
    by_cases hk : dots k = []
    · rw [hout, hk]
      simp [render, joined, slashed]
    · have hj := joined_ne_nil _ hk (dots_ne_nil_mem k)
      have hpos : 0 < (render false (dots k)).length := by
        simpa [render] using List.length_pos.2 hj
      rw [hout, if_pos hpos, render_push _ _ _ hk]
      simp
  refine ⟨hout2, ?_, fun h => absurd h (by decide), fun x hx => absurd hx (List.not_mem_nil x)⟩
  rw [hout2, List.append_nil]

/-! ## `path.Clean`: reading one element -/

theorem takeWhile_eq_nil_slash (t : List Char)
    (h : t.takeWhile (fun x => x != '/') = []) : t = [] ∨ t.head? = some '/' := by
  cases t with
  | nil => left; rfl
  | cons c t =>
    right
    by_cases hc : c = '/'
    · simp [hc]
    · simp [List.takeWhile_cons, hc] at h

theorem not_mem_takeWhile (t : List Char) : '/' ∉ t.takeWhile (fun x => x != '/') := by
  intro h
  have := List.mem_takeWhile_imp h
  simp at this

/-- In the default case of the loop the element that is copied is a proper one. -/
theorem Good_takeWhile (c : Char) (t : List Char) (h1 : c ≠ '/')
    (h2 : ¬ (c = '.' ∧ (t = [] ∨ t.head? = some '/')))
    (h3 : ¬ (c = '.' ∧ t.head? = some '.' ∧ (t.tail = [] ∨ t.tail.head? = some '/'))) :
    Good ((c :: t).takeWhile (fun x => x != '/')) := by
  have hcons : (c :: t).takeWhile (fun x => x != '/') = c :: t.takeWhile (fun x => x != '/') := by
    simp [List.takeWhile_cons, h1]
  refine ⟨?_, not_mem_takeWhile _, ?_, ?_⟩
  · rw [hcons]; simp
  · rw [hcons]
    intro h
    have hc : c = '.' := by simpa using (List.cons.inj h).1
    have ht := takeWhile_eq_nil_slash t (List.cons.inj h).2
    exact h2 ⟨hc, ht⟩
  · rw [hcons]
    intro h
    have hc : c = '.' := by simpa using (List.cons.inj h).1
    have ht : t.takeWhile (fun x => x != '/') = ['.'] := (List.cons.inj h).2
    cases t with
    | nil => simp at ht
    | cons d t' =>
      by_cases hd : d = '/'
      · simp [List.takeWhile_cons, hd] at ht
      · have hcons2 : (d :: t').takeWhile (fun x => x != '/') =
            d :: t'.takeWhile (fun x => x != '/') := by
          simp [List.takeWhile_cons, hd]
        rw [hcons2] at ht
        have hd2 : d = '.' := (List.cons.inj ht).1
        have ht' := takeWhile_eq_nil_slash t' (List.cons.inj ht).2
        exact h3 ⟨hc, by simp [hd2], by simpa using ht'⟩

/-- Reading a proper element that is followed by a separator or by the end. -/
theorem takeWhile_dropWhile_good (s rest : List Char) (hs : '/' ∉ s)
    (hrest : rest = [] ∨ rest.head? = some '/') :
    (s ++ rest).takeWhile (fun x => x != '/') = s ∧
      (s ++ rest).dropWhile (fun x => x != '/') = rest := by
  induction s with
  | nil =>
    rcases hrest with h | h
    · subst h; simp
    · cases rest with
      | nil => simp
      | cons d r =>
        have hd : d = '/' := by simpa using h
        simp [List.takeWhile_cons, List.dropWhile_cons, hd]
  | cons c t ih =>
    have hc : c ≠ '/' := fun h => hs (by simp [h])
    have ht : '/' ∉ t := fun h => hs (List.mem_cons_of_mem _ h)
    obtain ⟨i1, i2⟩ := ih ht
    simp [List.takeWhile_cons, List.dropWhile_cons, hc, i1, i2]

/-! ## `path.Clean`: the result is a rendered stack, and cleaning it again changes nothing -/

/-- From a state that satisfies the invariant the loop ends with a rendered stack. -/
theorem run_shape (rooted : Bool) :
    ∀ (n : Nat) (rest : List Char), rest.length ≤ n →
      ∀ (k : Nat) (segs : List (List Char)) (out : List Char) (dd : Nat),
        Inv rooted k segs out dd →
        ∃ k' segs', run rooted rest out dd = render rooted (dots k' ++ segs') ∧
          (rooted = true → k' = 0) ∧ ∀ s ∈ segs', Good s := by
  intro n
  induction n with
  | zero =>
    intro rest hlen k segs out dd hinv
    have hr : rest = [] := List.length_eq_zero.1 (Nat.le_zero.1 hlen)
    subst hr
    exact ⟨k, segs, by rw [run_nil]; exact hinv.1, hinv.2.2.1, hinv.2.2.2⟩
  | succ n ih =>
    intro rest hlen k segs out dd hinv
    cases rest with
    | nil => exact ⟨k, segs, by rw [run_nil]; exact hinv.1, hinv.2.2.1, hinv.2.2.2⟩
    | cons c t =>
      have ht : t.length ≤ n := by simpa using hlen
      have htail : t.tail.length ≤ n := le_trans (by simp) ht
      rw [run_cons]
      by_cases h1 : c = '/'
      · rw [if_pos h1]
        exact ih t ht k segs out dd hinv
      · rw [if_neg h1]
        by_cases h2 : c = '.' ∧ (t = [] ∨ t.head? = some '/')
        · rw [if_pos h2]
          exact ih t ht k segs out dd hinv
        · rw [if_neg h2]
          by_cases h3 : c = '.' ∧ t.head? = some '.' ∧ (t.tail = [] ∨ t.tail.head? = some '/')
          · rw [if_pos h3]
            by_cases h4 : dd < out.length
            · rw [if_pos h4]
              have hne : segs ≠ [] := hinv.length_lt_iff.1 h4
              obtain ⟨init, s, hsegs⟩ : ∃ init s, segs = init ++ [s] :=
                ⟨segs.dropLast, segs.getLast hne, (List.dropLast_append_getLast hne).symm⟩
              subst hsegs
              exact ih t.tail htail k init _ dd hinv.pop
            · rw [if_neg h4]
              have hnil : segs = [] := by
                by_contra hne
                exact h4 (hinv.length_lt_iff.2 hne)
              subst hnil
              cases rooted with
              | true =>
                rw [if_neg (by decide)]
                exact ih t.tail htail k [] out dd hinv
              | false =>
                rw [if_pos rfl]
                exact ih t.tail htail (k + 1) [] _ _ hinv.push_dots
          · rw [if_neg h3]
            have hgood := Good_takeWhile c t h1 h2 h3
            have hd : ((c :: t).dropWhile (fun x => x != '/')).length ≤ n :=
              le_trans (dropWhile_length_le c t h1) ht
            exact ih _ hd k _ _ dd (hinv.push _ hgood)

/-- Running the loop over the elements of a rendered stack pushes them all. -/
theorem run_slashed_segs (rooted : Bool) :
    ∀ (segs' : List (List Char)), (∀ s ∈ segs', Good s) →
      ∀ (k : Nat) (segs : List (List Char)) (out : List Char) (dd : Nat),
        Inv rooted k segs out dd →
        run rooted (slashed segs') out dd = render rooted (dots k ++ (segs ++ segs')) := by
  intro segs'
  induction segs' with
  | nil =>
    intro _ k segs out dd hinv
    rw [slashed, run_nil, List.append_nil]
    exact hinv.1
  | cons s rest ih =>
    intro hgood k segs out dd hinv
    have hs : Good s := hgood s (List.mem_cons_self _ _)
    have hrest : ∀ x ∈ rest, Good x := fun x hx => hgood x (List.mem_cons_of_mem _ hx)
    obtain ⟨c, t, hct⟩ : ∃ c t, s = c :: t := by
      cases s with
      | nil => exact absurd rfl hs.1
      | cons c t => exact ⟨c, t, rfl⟩
    have hc : c ≠ '/' := by
      intro h
      apply hs.2.1
      rw [hct, h]
      exact List.mem_cons_self _ _
    have htm : '/' ∉ t := by
      intro h
      apply hs.2.1
      rw [hct]
      exact List.mem_cons_of_mem _ h
    have hsl := slashed_nil_or_head rest
    have hsplit := takeWhile_dropWhile_good s (slashed rest) hs.2.1 hsl
    have h2 : ¬ (c = '.' ∧ (t ++ slashed rest = [] ∨ (t ++ slashed rest).head? = some '/')) := by
      rintro ⟨hdot, hcase⟩
      have htnil : t = [] := by
        cases t with
        | nil => rfl
        | cons d t' =>
          exfalso
          rcases hcase with h | h
          · simp at h
          · have hd : d = '/' := by simpa using h
            exact htm (by simp [hd])
      apply hs.2.2.1
      rw [hct, hdot, htnil]
    have h3 : ¬ (c = '.' ∧ (t ++ slashed rest).head? = some '.' ∧
        ((t ++ slashed rest).tail = [] ∨ (t ++ slashed rest).tail.head? = some '/')) := by
      rintro ⟨hdot, hhead, hcase⟩
      cases t with
      | nil =>
        rcases hsl with h | h
        · rw [h] at hhead; simp at hhead
        · rw [List.nil_append, h] at hhead
          exact absurd (Option.some.inj hhead) (by decide)
      | cons d t' =>
        have hd : d = '.' := by simpa using hhead
        have ht'm : '/' ∉ t' := fun h => htm (List.mem_cons_of_mem _ h)
        have ht'nil : t' = [] := by
          cases t' with
          | nil => rfl
          | cons e t'' =>
            exfalso
            rcases hcase with h | h
            · simp at h
            · have he : e = '/' := by simpa using h
              exact ht'm (by simp [he])
        apply hs.2.2.2
        rw [hct, hdot, hd, ht'nil]
    have hstep : run rooted (slashed (s :: rest)) out dd =
        run rooted (slashed rest)
          ((if (rooted = true ∧ out.length ≠ 1) ∨ (rooted = false ∧ out.length ≠ 0)
              then out ++ ['/'] else out) ++ s) dd := by
      rw [slashed, run_cons, if_pos rfl, hct, List.cons_append, run_cons, if_neg hc, if_neg h2,
        if_neg h3, ← List.cons_append, ← hct, hsplit.1, hsplit.2]
    rw [hstep, ih hrest k (segs ++ [s]) _ dd (hinv.push s hs)]
    simp

/-- Running the loop of an unrooted path over leading `..` elements and then
proper elements, from the buffer that already holds `..` elements only. -/
theorem run_slashed_dots (segs' : List (List Char)) (hgood : ∀ s ∈ segs', Good s) :
    ∀ (k' k : Nat) (out : List Char) (dd : Nat), Inv false k [] out dd →
      run false (slashed (dots k' ++ segs')) out dd = render false (dots (k + k') ++ segs') := by
  intro k'
  induction k' with
  | zero =>
    intro k out dd hinv
    rw [dots_zero, List.nil_append, run_slashed_segs false segs' hgood k [] out dd hinv]
    simp
  | succ k' ih =>
    intro k out dd hinv
    have hsl := slashed_nil_or_head (dots k' ++ segs')
    have hdots : dots (k' + 1) ++ segs' = ['.', '.'] :: (dots k' ++ segs') := by
      simp [dots, List.replicate_succ]
    have h2 : ¬ (('.' : Char) = '.' ∧
        ('.' :: slashed (dots k' ++ segs') = [] ∨
          ('.' :: slashed (dots k' ++ segs')).head? = some '/')) := by
      rintro ⟨_, h | h⟩
      · simp at h
      · exact absurd (Option.some.inj h) (by decide)
    have h3 : ('.' : Char) = '.' ∧ ('.' :: slashed (dots k' ++ segs')).head? = some '.' ∧
        (('.' :: slashed (dots k' ++ segs')).tail = [] ∨
          ('.' :: slashed (dots k' ++ segs')).tail.head? = some '/') :=
      ⟨rfl, rfl, by simpa using hsl⟩
    have h4 : ¬ dd < out.length := fun h => hinv.length_lt_iff.1 h rfl
    have hstep : run false (slashed (dots (k' + 1) ++ segs')) out dd =
        run false (slashed (dots k' ++ segs'))
          ((if 0 < out.length then out ++ ['/'] else out) ++ ['.', '.'])
          ((if 0 < out.length then out ++ ['/'] else out) ++ ['.', '.']).length := by
      rw [hdots, slashed, run_cons, if_pos rfl]
      show run false ('.' :: '.' :: slashed (dots k' ++ segs')) out dd = _
      rw [run_cons, if_neg (by decide), if_neg h2, if_pos h3, if_neg h4, if_pos rfl]
      rfl
    rw [hstep, ih (k + 1) _ _ hinv.push_dots]
    have : k + 1 + k' = k + (k' + 1) := by omega
    rw [this]

theorem run_slashed_eq_joined (rooted : Bool) (stk : List (List Char)) (out : List Char)
    (dd : Nat) : run rooted (joined stk) out dd = run rooted (slashed stk) out dd := by
  cases stk with
  | nil => rfl
  | cons s rest => rw [slashed, run_cons, if_pos rfl, joined]

theorem joined_head (stk : List (List Char)) (hne : stk ≠ [])
    (h : ∀ s ∈ stk, s ≠ [] ∧ '/' ∉ s) : ∃ d u, joined stk = d :: u ∧ d ≠ '/' := by
  cases stk with
  | nil => exact absurd rfl hne
  | cons s rest =>
    obtain ⟨hs1, hs2⟩ := h s (List.mem_cons_self _ _)
    cases s with
    | nil => exact absurd rfl hs1
    | cons d u =>
      refine ⟨d, u ++ slashed rest, by simp [joined], ?_⟩
      intro hd
      exact hs2 (by simp [hd])

theorem stack_mem_no_slash (k : Nat) (segs : List (List Char)) (h : ∀ s ∈ segs, Good s) :
    ∀ s ∈ dots k ++ segs, s ≠ [] ∧ '/' ∉ s := by
  intro s hs
  rcases List.mem_append.1 hs with h1 | h1
  · have := List.eq_of_mem_replicate h1
    rw [this]
    exact ⟨by simp, by decide⟩
  · exact ⟨(h s h1).1, (h s h1).2.1⟩

theorem Inv_rooted_init : Inv true 0 [] ['/'] 1 :=
  ⟨rfl, rfl, fun _ => rfl, fun x hx => absurd hx (List.not_mem_nil x)⟩

theorem Inv_unrooted_init : Inv false 0 [] [] 0 :=
  ⟨rfl, rfl, fun h => absurd h (by decide), fun x hx => absurd hx (List.not_mem_nil x)⟩

/-- `path.Clean` of a rooted path: `/` followed by proper elements separated by `/`. -/
theorem cleanChars_rooted (t : List Char) :
    cleanChars ('/' :: t) = run true t ['/'] 1 ∧
      ∃ segs, (∀ s ∈ segs, Good s) ∧ run true t ['/'] 1 = '/' :: joined segs := by
  obtain ⟨k, segs, hrun, hk, hgood⟩ := run_shape true t.length t (le_refl _) 0 [] ['/'] 1
    Inv_rooted_init
  have hk0 : k = 0 := hk rfl
  subst hk0
  have hout : run true t ['/'] 1 = '/' :: joined segs := by
    rw [hrun]
    simp [render, dots]
  refine ⟨?_, segs, hgood, hout⟩
  have hloop : cleanLoop true (t.length + 1) t ['/'] 1 = run true t ['/'] 1 :=
    cleanLoop_eq_run true _ t _ _ (Nat.le_succ _)
  simp only [cleanChars, List.length_cons, beq_self_eq_true, if_true, hloop]
  rw [hout]
  simp

/-- `path.Clean` of a non-empty unrooted path: `..` elements, then proper
elements, separated by `/`; or `.` when no element is left. -/
theorem cleanChars_unrooted (c : Char) (t : List Char) (hc : c ≠ '/') :
    cleanChars (c :: t) =
        (if (run false (c :: t) [] 0).length = 0 then ['.'] else run false (c :: t) [] 0) ∧
      ∃ k segs, (∀ s ∈ segs, Good s) ∧ run false (c :: t) [] 0 = joined (dots k ++ segs) := by
  obtain ⟨k, segs, hrun, _, hgood⟩ := run_shape false (c :: t).length (c :: t) (le_refl _)
    0 [] [] 0 Inv_unrooted_init
  refine ⟨?_, k, segs, hgood, by rw [hrun]; simp [render]⟩
  have hb : (c == '/') = false := by simpa using hc
  simp only [cleanChars, hb]
  rfl

/-- `path.Clean` is idempotent, on the characters. -/
theorem cleanChars_idem (p : List Char) : cleanChars (cleanChars p) = cleanChars p := by
  cases p with
  | nil => decide
  | cons c t =>
    by_cases hc : c = '/'
    · subst hc
      obtain ⟨h1, segs, hgood, hout⟩ := cleanChars_rooted t
      rw [h1, hout]
      obtain ⟨h2, _⟩ := cleanChars_rooted (joined segs)
      rw [h2, run_slashed_eq_joined, run_slashed_segs true segs hgood 0 [] ['/'] 1 Inv_rooted_init]
      simp [render, dots]
    · obtain ⟨h1, k, segs, hgood, hout⟩ := cleanChars_unrooted c t hc
      rw [h1]
      by_cases hlen : (run false (c :: t) [] 0).length = 0
      · rw [if_pos hlen]
        decide
      · rw [if_neg hlen, hout]
        have hne : dots k ++ segs ≠ [] := by
          intro h
          apply hlen
          rw [hout, h]
          rfl
        obtain ⟨d, u, hdu, hd⟩ := joined_head _ hne (stack_mem_no_slash k segs hgood)
        have h2 := (cleanChars_unrooted d u hd).1
        rw [← hdu] at h2
        have hrun : run false (joined (dots k ++ segs)) [] 0 = joined (dots k ++ segs) := by
          rw [run_slashed_eq_joined, run_slashed_dots segs hgood k 0 [] 0 Inv_unrooted_init]
          simp [render]
        rw [h2, hrun]
        rw [hout] at hlen
        rw [if_neg hlen]

/-- `path.Clean` is idempotent. -/
theorem Clean_idem (p : String) : Clean (Clean p) = Clean p := by
  simp only [Clean]
  rw [cleanChars_idem]

/-! ## Cleaning the request path -/

theorem effectivePath_withPath (r : Rule) (req : Request) (p : String)
    (hclean : r.CleanRequestPath = true) : effectivePath r (withPath req p) = Clean p := by
  simp [effectivePath, withPath, hclean]

/-- C10: with `CleanRequestPath` set and an absolute `SourcePath`, a request
with path `p` and the otherwise identical request with path `Clean(p)` get
the same match decision and the same destination path; in particular
`Clean("/a/../b") = "/b"`, so the path `/a/../b` is matched and rewritten
exactly as `/b`. -/
theorem clean_request_path_invariant (ToLower : String → String)
    (PC : String → String → Bool → Bool) (RP : String → String → Bool → String)
    (r : Rule) (req : Request) (p : String)
    (hclean : r.CleanRequestPath = true) (hsrc : IsAbs r.SourcePath = true) :
    (r.MatchesRequest ToLower PC (withPath req p) =
        r.MatchesRequest ToLower PC (withPath req (Clean p)) ∧
      (r.DestinationURL RP (withPath req p)).Path =
        (r.DestinationURL RP (withPath req (Clean p))).Path) ∧
    Clean "/a/../b" = "/b" ∧
    r.MatchesRequest ToLower PC (withPath req "/a/../b") =
      r.MatchesRequest ToLower PC (withPath req "/b") ∧
    (r.DestinationURL RP (withPath req "/a/../b")).Path =
      (r.DestinationURL RP (withPath req "/b")).Path := by
  have hgen : ∀ q : String,
      r.MatchesRequest ToLower PC (withPath req q) =
          r.MatchesRequest ToLower PC (withPath req (Clean q)) ∧
        (r.DestinationURL RP (withPath req q)).Path =
          (r.DestinationURL RP (withPath req (Clean q))).Path := by
    intro q
    have hhost : hostAgrees ToLower r (withPath req q) =
        hostAgrees ToLower r (withPath req (Clean q)) := rfl
    constructor
    · rw [MatchesRequest_eq, MatchesRequest_eq, effectivePath_withPath r req q hclean,
        effectivePath_withPath r req (Clean q) hclean, Clean_idem, hhost]
    · rw [DestinationURL_Path, DestinationURL_Path, effectivePath_withPath r req q hclean,
        effectivePath_withPath r req (Clean q) hclean, Clean_idem, hsrc]
      simp
  have hex : Clean "/a/../b" = "/b" := by decide
  have h := hgen "/a/../b"
  rw [hex] at h
  exact ⟨hgen p, hex, h.1, h.2⟩

theorem clean_request_path_invariant_witness :
    (({ apiRule with CleanRequestPath := true }).MatchesRequest asciiLower
          (PathContains asciiLower) (withPath (serverRequest "a.com" "" "x=1") "/api/./v//../u") =
        ({ apiRule with CleanRequestPath := true }).MatchesRequest asciiLower
          (PathContains asciiLower)
          (withPath (serverRequest "a.com" "" "x=1") (Clean "/api/./v//../u")) ∧
      (({ apiRule with CleanRequestPath := true }).DestinationURL RelativePath
          (withPath (serverRequest "a.com" "" "x=1") "/api/./v//../u")).Path =
        (({ apiRule with CleanRequestPath := true }).DestinationURL RelativePath
          (withPath (serverRequest "a.com" "" "x=1") (Clean "/api/./v//../u"))).Path) ∧
    Clean "/a/../b" = "/b" ∧
    ({ apiRule with CleanRequestPath := true }).MatchesRequest asciiLower
        (PathContains asciiLower) (withPath (serverRequest "a.com" "" "x=1") "/a/../b") =
      ({ apiRule with CleanRequestPath := true }).MatchesRequest asciiLower
        (PathContains asciiLower) (withPath (serverRequest "a.com" "" "x=1") "/b") ∧
    (({ apiRule with CleanRequestPath := true }).DestinationURL RelativePath
        (withPath (serverRequest "a.com" "" "x=1") "/a/../b")).Path =
      (({ apiRule with CleanRequestPath := true }).DestinationURL RelativePath
        (withPath (serverRequest "a.com" "" "x=1") "/b")).Path :=
  clean_request_path_invariant asciiLower (PathContains asciiLower) RelativePath
    { apiRule with CleanRequestPath := true } (serverRequest "a.com" "" "x=1") "/api/./v//../u"
    (by decide) (by decide)

/-! ## Splitting a path into segments -/

theorem splitSlash_ne_nil (x : List Char) : splitSlash x ≠ [] := by
  induction x with
  | nil => simp [splitSlash]
  | cons c t ih =>
    rw [splitSlash]
    split
    · simp
    · split <;> simp

theorem splitSlash_slash (t : List Char) : splitSlash ('/' :: t) = [] :: splitSlash t := by
  simp [splitSlash]

/-- The first segment is what is read up to the first `/`; the other
segments are those of the rest behind that `/`. -/
theorem splitSlash_eq (x : List Char) :
    splitSlash x = x.takeWhile (fun c => c != '/') ::
      (match x.dropWhile (fun c => c != '/') with
        | [] => []
        | _ :: y => splitSlash y) := by
  induction x with
  | nil => simp [splitSlash]
  | cons c t ih =>
    by_cases hc : c = '/'
    · subst hc
      simp [splitSlash]
    · rw [splitSlash, if_neg hc, ih]
      simp [List.takeWhile_cons, List.dropWhile_cons, hc]

theorem splitSlash_append_slash (a b : List Char) :
    splitSlash (a ++ '/' :: b) = splitSlash a ++ splitSlash b := by
  induction a with
  | nil =>
    rw [List.nil_append, splitSlash_slash]
    simp [splitSlash]
  | cons c t ih =>
    by_cases hc : c = '/'
    · subst hc
      rw [List.cons_append, splitSlash_slash, splitSlash_slash, ih]
      simp
    · rw [List.cons_append, splitSlash, if_neg hc, ih]
      conv_rhs => rw [splitSlash, if_neg hc]
      have hne := splitSlash_ne_nil t
      cases hsp : splitSlash t with
      | nil => exact absurd hsp hne
      | cons s rest => simp

theorem elems_nil : elems [] = [] := by
  simp [elems, splitSlash]

theorem elems_slash (t : List Char) : elems ('/' :: t) = elems t := by
  simp [elems, splitSlash_slash]

theorem DotFree_slash {t : List Char} (h : DotFree ('/' :: t)) : DotFree t := by
  intro s hs
  apply h
  rw [splitSlash_slash]
  exact List.mem_cons_of_mem _ hs

/-- The decomposition of a path that does not start with `/` into its first
element and the rest. -/
theorem elems_cons (c : Char) (t : List Char) (hc : c ≠ '/') :
    elems (c :: t) =
      (c :: t).takeWhile (fun x => x != '/') :: elems ((c :: t).dropWhile (fun x => x != '/')) := by
  have hne : (c :: t).takeWhile (fun x => x != '/') ≠ [] := by
    simp [List.takeWhile_cons, hc]
  rw [elems, splitSlash_eq, List.filter_cons_of_pos (by simpa using hne)]
  congr 1
  cases hd : (c :: t).dropWhile (fun x => x != '/') with
  | nil => simp [elems, splitSlash]
  | cons d y =>
    have hdsl : d = '/' := by
      have hmem := List.head_dropWhile_not (fun x => x != '/') (c :: t) (by rw [hd]; simp)
      simpa [hd] using hmem
    subst hdsl
    simp [elems, splitSlash_slash]

theorem DotFree_dropWhile (c : Char) (t : List Char) (h : DotFree (c :: t)) :
    DotFree ((c :: t).dropWhile (fun x => x != '/')) := by
  intro s hs
  cases hd : (c :: t).dropWhile (fun x => x != '/') with
  | nil =>
    rw [hd] at hs
    have : s = [] := by simpa [splitSlash] using hs
    subst this
    exact ⟨by simp, by simp⟩
  | cons d y =>
    have hdsl : d = '/' := by
      have hmem := List.head_dropWhile_not (fun x => x != '/') (c :: t) (by rw [hd]; simp)
      simpa [hd] using hmem
    subst hdsl
    rw [hd, splitSlash_slash] at hs
    rcases List.mem_cons.1 hs with h1 | h1
    · subst h1
      exact ⟨by simp, by simp⟩
    · apply h
      rw [splitSlash_eq, hd]
      exact List.mem_cons_of_mem _ h1

theorem DotFree_head (c : Char) (t : List Char) (h : DotFree (c :: t)) :
    (c :: t).takeWhile (fun x => x != '/') ≠ ['.'] ∧
      (c :: t).takeWhile (fun x => x != '/') ≠ ['.', '.'] := by
  apply h
  rw [splitSlash_eq]
  exact List.mem_cons_self _ _

/-! ## `path.Clean` on a path without `.` and `..` segments -/

theorem takeWhile_nil_of_slash (t : List Char) (h : t = [] ∨ t.head? = some '/') :
    t.takeWhile (fun x => x != '/') = [] := by
  cases t with
  | nil => rfl
  | cons d t' =>
    rcases h with h | h
    · simp at h
    · have hd : d = '/' := by simpa using h
      simp [List.takeWhile_cons, hd]

/-- On a path without `.` and `..` segments the loop pushes the non-empty segments. -/
theorem run_dotFree (rooted : Bool) :
    ∀ (n : Nat) (x : List Char), x.length ≤ n → DotFree x →
      ∀ (k : Nat) (segs : List (List Char)) (out : List Char) (dd : Nat),
        Inv rooted k segs out dd →
        run rooted x out dd = render rooted (dots k ++ (segs ++ elems x)) := by
  intro n
  induction n with
  | zero =>
    intro x hlen _ k segs out dd hinv
    have hx : x = [] := List.length_eq_zero.1 (Nat.le_zero.1 hlen)
    subst hx
    rw [run_nil, elems_nil, List.append_nil]
    exact hinv.1
  | succ n ih =>
    intro x hlen hdf k segs out dd hinv
    cases x with
    | nil =>
      rw [run_nil, elems_nil, List.append_nil]
      exact hinv.1
    | cons c t =>
      have ht : t.length ≤ n := by simpa using hlen
      by_cases h1 : c = '/'
      · subst h1
        rw [run_cons, if_pos rfl, elems_slash]
        exact ih t ht (DotFree_slash hdf) k segs out dd hinv
      · have hcons : (c :: t).takeWhile (fun x => x != '/') =
            c :: t.takeWhile (fun x => x != '/') := by
          simp [List.takeWhile_cons, h1]
        have hhead := DotFree_head c t hdf
        have h2 : ¬ (c = '.' ∧ (t = [] ∨ t.head? = some '/')) := by
          rintro ⟨hc, hcase⟩
          apply hhead.1
          rw [hcons, takeWhile_nil_of_slash t hcase, hc]
        have h3 : ¬ (c = '.' ∧ t.head? = some '.' ∧
            (t.tail = [] ∨ t.tail.head? = some '/')) := by
          rintro ⟨hc, hh, hcase⟩
          apply hhead.2
          cases t with
          | nil => simp at hh
          | cons d t' =>
            have hd : d = '.' := by simpa using hh
            have hcons2 : (d :: t').takeWhile (fun x => x != '/') =
                d :: t'.takeWhile (fun x => x != '/') := by
              simp [List.takeWhile_cons, hd]
            rw [hcons, hcons2, takeWhile_nil_of_slash t' (by simpa using hcase), hc, hd]
        have hgood := Good_takeWhile c t h1 h2 h3
        have hd : ((c :: t).dropWhile (fun x => x != '/')).length ≤ n :=
          le_trans (dropWhile_length_le c t h1) ht
        rw [run_cons, if_neg h1, if_neg h2, if_neg h3,
          ih _ hd (DotFree_dropWhile c t hdf) k _ _ dd (hinv.push _ hgood), elems_cons c t h1]
        simp

/-! ## Collapsing duplicate separators -/

theorem collapseSlashes_takeWhile (y : List Char) :
    collapseSlashes y =
      y.takeWhile (fun x => x != '/') ++ collapseSlashes (y.dropWhile (fun x => x != '/')) := by
  induction y with
  | nil => simp [collapseSlashes]
  | cons d y' ih =>
    by_cases hd : d = '/'
    · subst hd
      simp [List.takeWhile_cons, List.dropWhile_cons]
    · have hcond : ¬ (d = '/' ∧ y'.head? = some '/') := fun h => hd h.1
      rw [collapseSlashes, if_neg hcond, ih]
      simp [List.takeWhile_cons, List.dropWhile_cons, hd]

theorem getLast?_cons_of_ne_nil {α : Type} (a : α) (l : List α) (h : l ≠ []) :
    (a :: l).getLast? = l.getLast? := by
  cases l with
  | nil => exact absurd rfl h
  | cons b l' => simp [List.getLast?_cons_cons]

/-- After a `/`, collapsing duplicate separators writes the non-empty
segments, each with one `/` in front. -/
theorem collapseSlashes_slash :
    ∀ (n : Nat) (x : List Char), x.length ≤ n → (splitSlash x).getLast? ≠ some [] →
      collapseSlashes ('/' :: x) = slashed (elems x) := by
  intro n
  induction n with
  | zero =>
    intro x hlen hlast
    have hx : x = [] := List.length_eq_zero.1 (Nat.le_zero.1 hlen)
    subst hx
    exact absurd (by simp [splitSlash]) hlast
  | succ n ih =>
    intro x hlen hlast
    cases x with
    | nil => exact absurd (by simp [splitSlash]) hlast
    | cons c t =>
      have ht : t.length ≤ n := by simpa using hlen
      by_cases h1 : c = '/'
      · subst h1
        have hlast' : (splitSlash t).getLast? ≠ some [] := by
          rw [splitSlash_slash, getLast?_cons_of_ne_nil _ _ (splitSlash_ne_nil t)] at hlast
          exact hlast
        have hcond : ('/' : Char) = '/' ∧ ('/' :: t).head? = some '/' := ⟨rfl, rfl⟩
        rw [collapseSlashes, if_pos hcond, elems_slash]
        exact ih t ht hlast'
      · have hcond : ¬ (('/' : Char) = '/' ∧ (c :: t).head? = some '/') := by
          rintro ⟨_, h⟩
          exact h1 (by simpa using h)
        rw [collapseSlashes, if_neg hcond, collapseSlashes_takeWhile, elems_cons c t h1]
        cases hd : (c :: t).dropWhile (fun x => x != '/') with
        | nil => simp [elems_nil, slashed, collapseSlashes]
        | cons d y =>
          have hdsl : d = '/' := by
            have hmem := List.head_dropWhile_not (fun x => x != '/') (c :: t) (by rw [hd]; simp)
            simpa [hd] using hmem
          subst hdsl
          have hy : y.length ≤ n := by
            have h := dropWhile_length_le c t h1
            rw [hd] at h
            have h' : y.length + 1 ≤ t.length := by simpa using h
            omega
          have hlast' : (splitSlash y).getLast? ≠ some [] := by
            rw [splitSlash_eq, hd, getLast?_cons_of_ne_nil _ _ (splitSlash_ne_nil y)] at hlast
            exact hlast
          rw [ih y hy hlast', elems_slash]
          simp [slashed]

theorem elems_ne_nil (x : List Char) (hlast : (splitSlash x).getLast? ≠ some []) :
    elems x ≠ [] := by
  have hne := splitSlash_ne_nil x
  have hl : (splitSlash x).getLast? = some ((splitSlash x).getLast hne) :=
    List.getLast?_eq_getLast _ hne
  have hmem : (splitSlash x).getLast hne ∈ splitSlash x := List.getLast_mem hne
  have hnn : (splitSlash x).getLast hne ≠ [] := by
    intro h
    apply hlast
    rw [hl, h]
  intro h
  have : (splitSlash x).getLast hne ∈ elems x := by
    simp [elems, hmem, hnn]
  rw [h] at this
  exact absurd this (List.not_mem_nil _)

theorem elems_mem_ne_nil (x : List Char) : ∀ s ∈ elems x, s ≠ [] := by
  intro s hs
  have := (List.mem_filter.1 hs).2
  simpa using this

theorem slashed_eq_cons_joined (l : List (List Char)) (h : l ≠ []) :
    slashed l = '/' :: joined l := by
  cases l with
  | nil => exact absurd rfl h
  | cons s rest => rfl

/-- On a non-empty path without `.` and `..` segments whose last segment is
not empty, `path.Clean` only collapses the duplicate separators. -/
theorem cleanChars_eq_collapseSlashes (x : List Char) (hdf : DotFree x)
    (hlast : (splitSlash x).getLast? ≠ some []) : cleanChars x = collapseSlashes x := by
  cases x with
  | nil => exact absurd (by simp [splitSlash]) hlast
  | cons c t =>
    by_cases hc : c = '/'
    · subst hc
      have hlast' : (splitSlash t).getLast? ≠ some [] := by
        rw [splitSlash_slash, getLast?_cons_of_ne_nil _ _ (splitSlash_ne_nil t)] at hlast
        exact hlast
      rw [(cleanChars_rooted t).1,
        run_dotFree true t.length t (le_refl _) (DotFree_slash hdf) 0 [] ['/'] 1 Inv_rooted_init,
        collapseSlashes_slash t.length t (le_refl _) hlast',
        slashed_eq_cons_joined _ (elems_ne_nil t hlast')]
      simp [render, dots]
    · have hrun : run false (c :: t) [] 0 = joined (elems (c :: t)) := by
        rw [run_dotFree false (c :: t).length (c :: t) (le_refl _) hdf 0 [] [] 0
          Inv_unrooted_init]
        simp [render, dots]
      have hne := elems_ne_nil (c :: t) hlast
      have hj := joined_ne_nil _ hne (elems_mem_ne_nil (c :: t))
      have hlen : ¬ (joined (elems (c :: t))).length = 0 := by
        intro h
        exact hj (List.length_eq_zero.1 h)
      have hcol := collapseSlashes_slash (c :: t).length (c :: t) (le_refl _) hlast
      have hcond : ¬ (('/' : Char) = '/' ∧ (c :: t).head? = some '/') := by
        rintro ⟨_, h⟩
        exact hc (by simpa using h)
      rw [collapseSlashes, if_neg hcond, slashed_eq_cons_joined _ hne] at hcol
      rw [(cleanChars_unrooted c t hc).1, hrun, if_neg hlen]
      exact (List.cons.inj hcol).2.symm

/-! ## The destination path under a non-empty `DestPath` -/

theorem getLast?_append_of_ne_nil {α : Type} (a b : List α) (h : b ≠ []) :
    (a ++ b).getLast? = b.getLast? := by
  induction a with
  | nil => rfl
  | cons x a' ih =>
    have hne : a' ++ b ≠ [] := by simp [h]
    rw [List.cons_append, getLast?_cons_of_ne_nil _ _ hne, ih]

/-- `path.Join` of a non-empty `DestPath` and a remainder without `.` and
`..` segments whose last segment is not empty. -/
theorem Join_eq_joinCollapsed (d rel : String) (hd : d ≠ "") (hdf : DotFree d.data)
    (hrf : DotFree rel.data) (hlast : (splitSlash rel.data).getLast? ≠ some []) :
    Join [d, rel] = joinCollapsed d rel := by
  have hdf' : DotFree (d.data ++ '/' :: rel.data) := by
    intro s hs
    rw [splitSlash_append_slash] at hs
    rcases List.mem_append.1 hs with h | h
    · exact hdf s h
    · exact hrf s h
  have hlast' : (splitSlash (d.data ++ '/' :: rel.data)).getLast? ≠ some [] := by
    rw [splitSlash_append_slash, getLast?_append_of_ne_nil _ _ (splitSlash_ne_nil _)]
    exact hlast
  rw [Join_pair d rel hd, joinCollapsed, Clean]
  exact congrArg String.mk (cleanChars_eq_collapseSlashes _ hdf' hlast')

/-- C8, as the code has it: for an absolute `SourcePath` and a non-empty
`DestPath` the destination path is `path.Clean(DestPath + "/" + remainder)`,
the remainder being `RelativePath(SourcePath, effectivePath,
CaseSensitivePath)`; when neither `DestPath` nor the remainder has a `.` or
`..` segment and the last segment of the remainder is not empty, this is
`DestPath`, one `/` and the remainder with duplicate separators collapsed. -/
theorem DestinationURL_Path_of_DestPath (RP : String → String → Bool → String)
    (r : Rule) (req : Request) (hsrc : IsAbs r.SourcePath = true) (hdst : r.DestPath ≠ "") :
    (r.DestinationURL RP req).Path =
        Clean (r.DestPath ++ "/" ++ RP r.SourcePath (effectivePath r req) r.CaseSensitivePath) ∧
      (DotFree r.DestPath.data →
        DotFree (RP r.SourcePath (effectivePath r req) r.CaseSensitivePath).data →
        (splitSlash (RP r.SourcePath (effectivePath r req) r.CaseSensitivePath).data).getLast? ≠
          some [] →
        (r.DestinationURL RP req).Path =
          joinCollapsed r.DestPath
            (RP r.SourcePath (effectivePath r req) r.CaseSensitivePath)) := by
  have hpath : (r.DestinationURL RP req).Path =
      Join [r.DestPath, RP r.SourcePath (effectivePath r req) r.CaseSensitivePath] := by
    rw [DestinationURL_Path, hsrc]
    simp [hdst]
  constructor
  · rw [hpath, Join_pair _ _ hdst]
    apply congrArg Clean
    apply String.ext
    simp
  · intro hdf hrf hlast
    rw [hpath]
    exact Join_eq_joinCollapsed _ _ hdst hdf hrf hlast

theorem DestinationURL_Path_of_DestPath_witness :
    (apiRule.DestinationURL RelativePath (serverRequest "a.com" "/api//users/7" "")).Path =
        Clean (apiRule.DestPath ++ "/" ++ RelativePath apiRule.SourcePath
          (effectivePath apiRule (serverRequest "a.com" "/api//users/7" ""))
          apiRule.CaseSensitivePath) ∧
      (apiRule.DestinationURL RelativePath (serverRequest "a.com" "/api//users/7" "")).Path =
        joinCollapsed apiRule.DestPath
          (RelativePath apiRule.SourcePath
            (effectivePath apiRule (serverRequest "a.com" "/api//users/7" ""))
            apiRule.CaseSensitivePath) :=
  ⟨(DestinationURL_Path_of_DestPath RelativePath apiRule
      (serverRequest "a.com" "/api//users/7" "") (by decide) (by decide)).1,
    (DestinationURL_Path_of_DestPath RelativePath apiRule
      (serverRequest "a.com" "/api//users/7" "") (by decide) (by decide)).2
      (by decide) (by decide) (by decide)⟩

/-- C8, as stated, fails for the rule `a.com/api → http://b.internal/v2`.  It
matches the request `a.com/api/../secret`, whose remainder is `../secret`,
and the destination path is `/secret`, not `/v2/../secret`.  It also matches
the request `a.com/api`, whose remainder is empty, and the destination path
is `/v2`, with no separator after `DestPath`, not `/v2/`. -/
theorem DestinationURL_Path_ne_joinCollapsed :
    (IsAbs apiRule.SourcePath = true ∧ apiRule.DestPath ≠ "") ∧
      (apiRule.MatchesRequest asciiLower (PathContains asciiLower)
          (serverRequest "a.com" "/api/../secret" "") = true ∧
        RelativePath apiRule.SourcePath
          (effectivePath apiRule (serverRequest "a.com" "/api/../secret" ""))
          apiRule.CaseSensitivePath = "../secret" ∧
        (apiRule.DestinationURL RelativePath (serverRequest "a.com" "/api/../secret" "")).Path =
          "/secret" ∧
        joinCollapsed apiRule.DestPath "../secret" = "/v2/../secret" ∧
        (apiRule.DestinationURL RelativePath (serverRequest "a.com" "/api/../secret" "")).Path ≠
          joinCollapsed apiRule.DestPath
            (RelativePath apiRule.SourcePath
              (effectivePath apiRule (serverRequest "a.com" "/api/../secret" ""))
              apiRule.CaseSensitivePath)) ∧
      (apiRule.MatchesRequest asciiLower (PathContains asciiLower)
          (serverRequest "a.com" "/api" "") = true ∧
        RelativePath apiRule.SourcePath
          (effectivePath apiRule (serverRequest "a.com" "/api" ""))
          apiRule.CaseSensitivePath = "" ∧
        (apiRule.DestinationURL RelativePath (serverRequest "a.com" "/api" "")).Path = "/v2" ∧
        joinCollapsed apiRule.DestPath "" = "/v2/" ∧
        (apiRule.DestinationURL RelativePath (serverRequest "a.com" "/api" "")).Path ≠
          joinCollapsed apiRule.DestPath
            (RelativePath apiRule.SourcePath
              (effectivePath apiRule (serverRequest "a.com" "/api" ""))
              apiRule.CaseSensitivePath)) := by
  refine ⟨⟨by decide, by decide⟩, ⟨by decide, by decide, by decide, by decide, by decide⟩,
    ⟨by decide, by decide, by decide, by decide, by decide⟩⟩

/-! ## The effective request path and the request view -/

theorem IsAbs_mk_cons (c : Char) (t : List Char) : IsAbs (String.mk (c :: t)) = (c == '/') := rfl

/-- `path.Clean` keeps a rooted path rooted and an unrooted path unrooted. -/
theorem IsAbs_Clean (p : String) : IsAbs (Clean p) = IsAbs p := by
  cases p with
  | mk l =>
    cases l with
    | nil => decide
    | cons c t =>
      by_cases hc : c = '/'
      · subst hc
        obtain ⟨h1, segs, _, hout⟩ := cleanChars_rooted t
        simp only [Clean, h1, hout]
        rfl
      · obtain ⟨h1, k, segs, hgood, hout⟩ := cleanChars_unrooted c t hc
        have hb : (c == '/') = false := by simpa using hc
        rw [IsAbs_mk_cons, hb]
        simp only [Clean, h1]
        by_cases hlen : (run false (c :: t) [] 0).length = 0
        · rw [if_pos hlen]
          decide
        · rw [if_neg hlen, hout]
          have hne : dots k ++ segs ≠ [] := by
            intro h
            apply hlen
            rw [hout, h]
            rfl
          obtain ⟨d, u, hdu, hd⟩ := joined_head _ hne (stack_mem_no_slash k segs hgood)
          rw [hdu, IsAbs_mk_cons]
          simpa using hd

/-- C11, at the example of the comment on `CleanRequestPath`: with the flag
set, the effective path of the request path `foo/../bar` is `bar`, which is
not absolute, and not `/bar`; `path.Clean` leaves an unrooted path unrooted.
Likewise the empty path, which a request in absolute form without a path
carries, has the effective path `.`. -/
theorem reqPath_not_anchored :
    ({ apiRule with CleanRequestPath := true }).reqPath
        (serverRequest "a.com" "foo/../bar" "") = "bar" ∧
      IsAbs (({ apiRule with CleanRequestPath := true }).reqPath
        (serverRequest "a.com" "foo/../bar" "")) = false ∧
      ({ apiRule with CleanRequestPath := true }).reqPath
        (serverRequest "a.com" "foo/../bar" "") ≠ "/bar" ∧
      ({ apiRule with CleanRequestPath := true }).reqPath (serverRequest "a.com" "" "") = "." ∧
      IsAbs (({ apiRule with CleanRequestPath := true }).reqPath
        (serverRequest "a.com" "" "")) = false := by
  refine ⟨by decide, by decide, by decide, by decide, by decide⟩

/-- C12: two requests with the same `Host` and the same URL path get the same
match decision from every rule, whatever their method, headers, body and the
other components of their URL are. -/
theorem MatchesRequest_depends_on_host_and_path (ToLower : String → String)
    (PC : String → String → Bool → Bool) (r : Rule) (req1 req2 : Request)
    (hhost : req1.Host = req2.Host) (hpath : req1.URL.Path = req2.URL.Path) :
    r.MatchesRequest ToLower PC req1 = r.MatchesRequest ToLower PC req2 := by
  have h1 : hostAgrees ToLower r req1 = hostAgrees ToLower r req2 := by
    simp only [hostAgrees, hhost]
  have h2 : effectivePath r req1 = effectivePath r req2 := by
    simp only [effectivePath, hpath]
  rw [MatchesRequest_eq, MatchesRequest_eq, h1, h2]

theorem MatchesRequest_depends_on_host_and_path_witness :
    apiRule.MatchesRequest asciiLower (PathContains asciiLower)
        (serverRequest "a.com" "/api/users" "x=1") =
      apiRule.MatchesRequest asciiLower (PathContains asciiLower)
        { Method := "POST",
          URL := { Scheme := "https", Opaque := "", User := some ⟨"u", "p", true⟩, Host := "z",
                   Path := "/api/users", RawPath := "/api%2Fusers", OmitHost := false,
                   ForceQuery := true, RawQuery := "y=2", Fragment := "top",
                   RawFragment := "" },
          Header := [("X-Test", ["1"])], Body := [1, 2, 3], Host := "a.com" } :=
  MatchesRequest_depends_on_host_and_path _ _ _ _ _ (by decide) (by decide)

theorem splitSlash_no_slash (x : List Char) : ∀ s ∈ splitSlash x, '/' ∉ s := by
  induction x with
  | nil =>
    intro s hs
    have : s = [] := by simpa [splitSlash] using hs
    subst this
    simp
  | cons c t ih =>
    intro s hs
    by_cases hc : c = '/'
    · subst hc
      rw [splitSlash_slash] at hs
      rcases List.mem_cons.1 hs with h | h
      · subst h; simp
      · exact ih s h
    · rw [splitSlash, if_neg hc] at hs
      have hne := splitSlash_ne_nil t
      cases hsp : splitSlash t with
      | nil => exact absurd hsp hne
      | cons s0 rest =>
        rw [hsp] at hs ih
        simp only at hs
        rcases List.mem_cons.1 hs with h | h
        · subst h
          have h0 := ih s0 (List.mem_cons_self _ _)
          intro hmem
          rcases List.mem_cons.1 hmem with h1 | h1
          · exact hc h1.symm
          · exact h0 h1
        · exact ih s (List.mem_cons_of_mem _ h)

theorem pathSegments_no_slash (p : String) : ∀ s ∈ pathSegments p, '/' ∉ s := by
  intro s hs
  apply splitSlash_no_slash p.data
  simp only [pathSegments] at hs
  split at hs
  · exact List.mem_of_mem_dropLast hs
  · exact hs

/-! ## The Path Matcher and the Path Relativizer of the specification -/

theorem dropLast_cons_of_ne_nil {α : Type} (a : α) (l : List α) (h : l ≠ []) :
    (a :: l).dropLast = a :: l.dropLast := by
  cases l with
  | nil => exact absurd rfl h
  | cons b l' => rfl

/-- The segments of an absolute path start with the empty segment that
precedes its leading `/`. -/
theorem pathSegments_abs (p : String) (hp : IsAbs p = true) :
    ∃ rest, pathSegments p = [] :: rest := by
  cases p with
  | mk l =>
    cases l with
    | nil => exact absurd hp (by decide)
    | cons c t =>
      have hc : c = '/' := by
        rw [IsAbs_mk_cons] at hp
        simpa using hp
      subst hc
      have hne := splitSlash_ne_nil t
      simp only [pathSegments, splitSlash_slash]
      split
      · exact ⟨_, dropLast_cons_of_ne_nil _ _ hne⟩
      · exact ⟨_, rfl⟩

theorem PathContains_iff (ToLower : String → String) (s c : String) (cs : Bool) :
    PathContains ToLower s c cs = true ↔
      (pathSegments s).map (fun seg => if cs then seg else (ToLower (String.mk seg)).data) <+:
        (pathSegments c).map (fun seg => if cs then seg else (ToLower (String.mk seg)).data) := by
  simp only [PathContains]
  exact List.isPrefixOf_iff_prefix

/-- C13: `PathContains` holds exactly when the segments of `candidatePath`
(a trailing empty segment being ignored) begin with the segments of
`sourcePrefix`, compared exactly when `caseSensitive` and after case-folding
otherwise; hence `/` and `candidatePath` itself are contained in every
absolute `candidatePath`, and `/foo` is not contained in `/foobar`. -/
theorem PathContains_segment_prefix (ToLower : String → String) (s c : String) (cs : Bool)
    (hc : IsAbs c = true) :
    (PathContains ToLower s c true = true ↔ pathSegments s <+: pathSegments c) ∧
      (PathContains ToLower s c false = true ↔
        (pathSegments s).map (fun seg => (ToLower (String.mk seg)).data) <+:
          (pathSegments c).map (fun seg => (ToLower (String.mk seg)).data)) ∧
      PathContains ToLower "/" c cs = true ∧
      PathContains ToLower c c cs = true ∧
      PathContains ToLower "/foo" "/foobar" true = false := by
  refine ⟨?_, ?_, ?_, ?_, ?_⟩
  · have h := PathContains_iff ToLower s c true
    simpa using h
  · have h := PathContains_iff ToLower s c false
    simpa using h
  · obtain ⟨rest, hrest⟩ := pathSegments_abs c hc
    have hroot : pathSegments "/" = [[]] := by decide
    rw [PathContains_iff, hroot, hrest]
    simp only [List.map_cons, List.map_nil]
    exact ⟨_, rfl⟩
  · exact (PathContains_iff ToLower c c cs).2 (List.prefix_refl _)
  · have h1 : pathSegments "/foo" = [[], ['f', 'o', 'o']] := by decide
    have h2 : pathSegments "/foobar" = [[], ['f', 'o', 'o', 'b', 'a', 'r']] := by decide
    have h : ¬ PathContains ToLower "/foo" "/foobar" true = true := by
      rw [PathContains_iff, h1, h2]
      simp
    simpa using h

theorem PathContains_segment_prefix_witness :
    (PathContains asciiLower "/Foo" "/foo/bar/" true = true ↔
        pathSegments "/Foo" <+: pathSegments "/foo/bar/") ∧
      (PathContains asciiLower "/Foo" "/foo/bar/" false = true ↔
        (pathSegments "/Foo").map (fun seg => (asciiLower (String.mk seg)).data) <+:
          (pathSegments "/foo/bar/").map (fun seg => (asciiLower (String.mk seg)).data)) ∧
      PathContains asciiLower "/" "/foo/bar/" false = true ∧
      PathContains asciiLower "/foo/bar/" "/foo/bar/" false = true ∧
      PathContains asciiLower "/foo" "/foobar" true = false :=
  PathContains_segment_prefix asciiLower "/Foo" "/foo/bar/" false (by decide)

theorem intercalate_eq_joined (l : List (List Char)) : List.intercalate ['/'] l = joined l := by
  cases l with
  | nil => rfl
  | cons s rest =>
    induction rest generalizing s with
    | nil => simp [List.intercalate, List.intersperse, joined, slashed]
    | cons s2 rest ih =>
      have h := ih s2
      simp only [List.intercalate, List.intersperse, joined, slashed] at h ⊢
      rw [List.flatten_cons, List.flatten_cons, h]
      simp

/-! ## `path.Clean`: splitting the loop at a separator -/

theorem nil_or_head_append_slash (t b : List Char) :
    (t ++ '/' :: b = [] ∨ (t ++ '/' :: b).head? = some '/') ↔ (t = [] ∨ t.head? = some '/') := by
  cases t with
  | nil => simp
  | cons d t' => simp

theorem takeWhile_append_slash (a b : List Char) :
    (a ++ '/' :: b).takeWhile (fun x => x != '/') = a.takeWhile (fun x => x != '/') := by
  induction a with
  | nil => simp [List.takeWhile_cons]
  | cons c t ih =>
    by_cases hc : c = '/'
    · simp [List.takeWhile_cons, hc]
    · simp [List.takeWhile_cons, hc, ih]

theorem dropWhile_append_slash (a b : List Char) :
    (a ++ '/' :: b).dropWhile (fun x => x != '/') =
      a.dropWhile (fun x => x != '/') ++ '/' :: b := by
  induction a with
  | nil => simp [List.dropWhile_cons]
  | cons c t ih =>
    by_cases hc : c = '/'
    · simp [List.dropWhile_cons, hc]
    · simp [List.dropWhile_cons, hc, ih]

/-- Reading `a` and then a separator leaves the loop in the state in which it
ends on `a` alone; that state satisfies the invariant. -/
theorem run_append_slash (rooted : Bool) :
    ∀ (n : Nat) (a : List Char), a.length ≤ n →
      ∀ (k : Nat) (segs : List (List Char)) (out : List Char) (dd : Nat),
        Inv rooted k segs out dd →
        ∃ k' segs' out' dd', Inv rooted k' segs' out' dd' ∧ run rooted a out dd = out' ∧
          ∀ b, run rooted (a ++ '/' :: b) out dd = run rooted b out' dd' := by
  intro n
  induction n with
  | zero =>
    intro a hlen k segs out dd hinv
    have ha : a = [] := List.length_eq_zero.1 (Nat.le_zero.1 hlen)
    subst ha
    refine ⟨k, segs, out, dd, hinv, run_nil _ _ _, fun b => ?_⟩
    rw [List.nil_append, run_cons, if_pos rfl]
  | succ n ih =>
    intro a hlen k segs out dd hinv
    cases a with
    | nil =>
      refine ⟨k, segs, out, dd, hinv, run_nil _ _ _, fun b => ?_⟩
      rw [List.nil_append, run_cons, if_pos rfl]
    | cons c t =>
      have ht : t.length ≤ n := by simpa using hlen
      have htail : t.tail.length ≤ n := le_trans (by simp) ht
      by_cases h1 : c = '/'
      · obtain ⟨k', segs', out', dd', hinv', hrun, happ⟩ := ih t ht k segs out dd hinv
        refine ⟨k', segs', out', dd', hinv', ?_, fun b => ?_⟩
        · rw [run_cons, if_pos h1, hrun]
        · rw [List.cons_append, run_cons, if_pos h1, happ b]
      · by_cases h2 : c = '.' ∧ (t = [] ∨ t.head? = some '/')
        · obtain ⟨k', segs', out', dd', hinv', hrun, happ⟩ := ih t ht k segs out dd hinv
          refine ⟨k', segs', out', dd', hinv', ?_, fun b => ?_⟩
          · rw [run_cons, if_neg h1, if_pos h2, hrun]
          · have h2' : c = '.' ∧ (t ++ '/' :: b = [] ∨ (t ++ '/' :: b).head? = some '/') :=
              ⟨h2.1, (nil_or_head_append_slash t b).2 h2.2⟩
            rw [List.cons_append, run_cons, if_neg h1, if_pos h2', happ b]
        · have h2' : ∀ b, ¬ (c = '.' ∧
              (t ++ '/' :: b = [] ∨ (t ++ '/' :: b).head? = some '/')) :=
            fun b h => h2 ⟨h.1, (nil_or_head_append_slash t b).1 h.2⟩
          by_cases h3 : c = '.' ∧ t.head? = some '.' ∧ (t.tail = [] ∨ t.tail.head? = some '/')
          · obtain ⟨d, t', htd⟩ : ∃ d t', t = d :: t' := by
              cases t with
              | nil => simp at h3
              | cons d t' => exact ⟨d, t', rfl⟩
            subst htd
            have h3' : ∀ b, c = '.' ∧ ((d :: t') ++ '/' :: b).head? = some '.' ∧
                (((d :: t') ++ '/' :: b).tail = [] ∨
                  ((d :: t') ++ '/' :: b).tail.head? = some '/') :=
              fun b => ⟨h3.1, h3.2.1, (nil_or_head_append_slash t' b).2 h3.2.2⟩
            have hstep : ∀ (o : List Char) (e : Nat) (k1 : Nat) (s1 : List (List Char)),
                Inv rooted k1 s1 o e →
                ∃ k' segs' out' dd', Inv rooted k' segs' out' dd' ∧ run rooted t' o e = out' ∧
                  ∀ b, run rooted (t' ++ '/' :: b) o e = run rooted b out' dd' :=
              fun o e k1 s1 hi => ih t' htail k1 s1 o e hi
            by_cases h4 : dd < out.length
            · have hne : segs ≠ [] := hinv.length_lt_iff.1 h4
              obtain ⟨init, s, hsegs⟩ : ∃ init s, segs = init ++ [s] :=
                ⟨segs.dropLast, segs.getLast hne, (List.dropLast_append_getLast hne).symm⟩
              subst hsegs
              obtain ⟨k', segs', out', dd', hinv', hrun, happ⟩ := hstep _ dd k init hinv.pop
              refine ⟨k', segs', out', dd', hinv', ?_, fun b => ?_⟩
              · rw [run_cons, if_neg h1, if_neg h2, if_pos h3, if_pos h4]
                exact hrun
              · rw [List.cons_append, run_cons, if_neg h1, if_neg (h2' b), if_pos (h3' b),
                  if_pos h4]
                exact happ b
            · have hnil : segs = [] := by
                by_contra hne
                exact h4 (hinv.length_lt_iff.2 hne)
              subst hnil
              cases rooted with
              | true =>
                obtain ⟨k', segs', out', dd', hinv', hrun, happ⟩ := hstep out dd k [] hinv
                refine ⟨k', segs', out', dd', hinv', ?_, fun b => ?_⟩
                · rw [run_cons, if_neg h1, if_neg h2, if_pos h3, if_neg h4,
                    if_neg (by decide)]
                  exact hrun
                · rw [List.cons_append, run_cons, if_neg h1, if_neg (h2' b), if_pos (h3' b),
                    if_neg h4, if_neg (by decide)]
                  exact happ b
              | false =>
                obtain ⟨k', segs', out', dd', hinv', hrun, happ⟩ :=
                  hstep _ _ (k + 1) [] hinv.push_dots
                refine ⟨k', segs', out', dd', hinv', ?_, fun b => ?_⟩
                · rw [run_cons, if_neg h1, if_neg h2, if_pos h3, if_neg h4, if_pos rfl]
                  exact hrun
                · rw [List.cons_append, run_cons, if_neg h1, if_neg (h2' b), if_pos (h3' b),
                    if_neg h4, if_pos rfl]
                  exact happ b
          · have h3' : ∀ b, ¬ (c = '.' ∧ (t ++ '/' :: b).head? = some '.' ∧
                ((t ++ '/' :: b).tail = [] ∨ (t ++ '/' :: b).tail.head? = some '/')) := by
              intro b h
              cases t with
              | nil =>
                have := h.2.1
                simp at this
              | cons d t' =>
                exact h3 ⟨h.1, h.2.1, (nil_or_head_append_slash t' b).1 h.2.2⟩
            have hgood := Good_takeWhile c t h1 h2 h3
            have hd : ((c :: t).dropWhile (fun x => x != '/')).length ≤ n :=
              le_trans (dropWhile_length_le c t h1) ht
            obtain ⟨k', segs', out', dd', hinv', hrun, happ⟩ :=
              ih _ hd k _ _ dd (hinv.push _ hgood)
            refine ⟨k', segs', out', dd', hinv', ?_, fun b => ?_⟩
            · rw [run_cons, if_neg h1, if_neg h2, if_neg h3]
              exact hrun
            · rw [List.cons_append, run_cons, if_neg h1, if_neg (h2' b), if_neg (h3' b),
                ← List.cons_append, takeWhile_append_slash, dropWhile_append_slash]
              exact happ b

/-! ## `path.Clean`: a trailing separator, and the normal form -/

/-- A trailing `/` after a non-empty path does not change its cleaned form. -/
theorem cleanChars_append_slash (x : List Char) (hx : x ≠ []) :
    cleanChars (x ++ ['/']) = cleanChars x := by
  cases x with
  | nil => exact absurd rfl hx
  | cons c t =>
    by_cases hc : c = '/'
    · subst hc
      obtain ⟨_, _, _, _, _, hrun, happ⟩ :=
        run_append_slash true t.length t (le_refl _) 0 [] ['/'] 1 Inv_rooted_init
      rw [List.cons_append, (cleanChars_rooted (t ++ ['/'])).1, (cleanChars_rooted t).1, happ [],
        run_nil, hrun]
    · obtain ⟨_, _, _, _, _, hrun, happ⟩ :=
        run_append_slash false (c :: t).length (c :: t) (le_refl _) 0 [] [] 0 Inv_unrooted_init
      have happ' := happ []
      rw [run_nil, ← hrun] at happ'
      rw [List.cons_append, (cleanChars_unrooted c (t ++ ['/']) hc).1,
        (cleanChars_unrooted c t hc).1, ← List.cons_append, happ']

/-- The elements of a cleaned path: non-empty, free of `/`, and not `.`. -/
theorem stack_mem_nice (k : Nat) (segs : List (List Char)) (h : ∀ s ∈ segs, Good s) :
    ∀ s ∈ dots k ++ segs, s ≠ [] ∧ '/' ∉ s ∧ s ≠ ['.'] := by
  intro s hs
  rcases List.mem_append.1 hs with h1 | h1
  · have := List.eq_of_mem_replicate h1
    rw [this]
    exact ⟨by simp, by decide, by decide⟩
  · exact ⟨(h s h1).1, (h s h1).2.1, (h s h1).2.2.1⟩

/-- The cleaned form of a path is `.`, or a rendered stack of elements that
are non-empty, free of `/` and not `.`; the path and its cleaned form are
rooted together, and an unrooted stack is not empty. -/
theorem cleanChars_shape (x : List Char) :
    cleanChars x = ['.'] ∨
      ∃ rooted stk, cleanChars x = render rooted stk ∧
        (∀ s ∈ stk, s ≠ [] ∧ '/' ∉ s ∧ s ≠ ['.']) ∧ (rooted = false → stk ≠ []) := by
  cases x with
  | nil => left; rfl
  | cons c t =>
    by_cases hc : c = '/'
    · subst hc
      obtain ⟨h1, segs, hgood, hout⟩ := cleanChars_rooted t
      right
      refine ⟨true, segs, ?_, ?_, fun h => absurd h (by decide)⟩
      · rw [h1, hout]
        rfl
      · exact fun s hs => ⟨(hgood s hs).1, (hgood s hs).2.1, (hgood s hs).2.2.1⟩
    · obtain ⟨h1, k, segs, hgood, hout⟩ := cleanChars_unrooted c t hc
      by_cases hlen : (run false (c :: t) [] 0).length = 0
      · left
        rw [h1, if_pos hlen]
      · right
        refine ⟨false, dots k ++ segs, ?_, stack_mem_nice k segs hgood, fun _ h => ?_⟩
        · rw [h1, if_neg hlen, hout]
          rfl
        · apply hlen
          rw [hout, h]
          rfl

theorem collapseSlashes_append_of_no_slash (s y : List Char) (hs : '/' ∉ s) :
    collapseSlashes (s ++ y) = s ++ collapseSlashes y := by
  induction s with
  | nil => rfl
  | cons c t ih =>
    have hc : c ≠ '/' := fun h => hs (by simp [h])
    have ht : '/' ∉ t := fun h => hs (List.mem_cons_of_mem _ h)
    have hcond : ¬ (c = '/' ∧ (t ++ y).head? = some '/') := fun h => hc h.1
    rw [List.cons_append, collapseSlashes, if_neg hcond, ih ht, List.cons_append]

theorem collapseSlashes_slashed (stk : List (List Char))
    (h : ∀ s ∈ stk, s ≠ [] ∧ '/' ∉ s) : collapseSlashes (slashed stk) = slashed stk := by
  induction stk with
  | nil => rfl
  | cons s rest ih =>
    obtain ⟨hne, hns⟩ := h s (List.mem_cons_self _ _)
    have hrest : ∀ x ∈ rest, x ≠ [] ∧ '/' ∉ x := fun x hx => h x (List.mem_cons_of_mem _ hx)
    have hcond : ¬ (('/' : Char) = '/' ∧ (s ++ slashed rest).head? = some '/') := by
      rintro ⟨_, hh⟩
      cases s with
      | nil => exact hne rfl
      | cons d u =>
        have hd : d = '/' := by simpa using hh
        exact hns (by simp [hd])
    rw [slashed, collapseSlashes, if_neg hcond, collapseSlashes_append_of_no_slash _ _ hns,
      ih hrest]

/-- A rendered stack has no repeated separator. -/
theorem collapseSlashes_render (rooted : Bool) (stk : List (List Char))
    (h : ∀ s ∈ stk, s ≠ [] ∧ '/' ∉ s) :
    collapseSlashes (render rooted stk) = render rooted stk := by
  cases stk with
  | nil => cases rooted <;> decide
  | cons s rest =>
    have hrest : ∀ x ∈ rest, x ≠ [] ∧ '/' ∉ x := fun x hx => h x (List.mem_cons_of_mem _ hx)
    cases rooted with
    | true =>
      have hr : render true (s :: rest) = slashed (s :: rest) := rfl
      rw [hr, collapseSlashes_slashed _ h]
    | false =>
      have hr : render false (s :: rest) = s ++ slashed rest := rfl
      rw [hr, collapseSlashes_append_of_no_slash _ _ (h s (List.mem_cons_self _ _)).2,
        collapseSlashes_slashed _ hrest]

theorem getLast?_ne_slash (a s : List Char) (hne : s ≠ []) (hs : '/' ∉ s) :
    (a ++ s).getLast? ≠ some '/' := by
  rw [getLast?_append_of_ne_nil _ _ hne, List.getLast?_eq_getLast _ hne]
  intro h
  apply hs
  rw [← Option.some.inj h]
  exact List.getLast_mem hne

/-- A rendered stack ends in `/` only if it is the root. -/
theorem render_getLast? (rooted : Bool) (stk : List (List Char))
    (h : ∀ s ∈ stk, s ≠ [] ∧ '/' ∉ s) (hlast : (render rooted stk).getLast? = some '/') :
    render rooted stk = ['/'] := by
  by_cases hstk : stk = []
  · subst hstk
    cases rooted
    · simp [render, joined] at hlast
    · rfl
  · exfalso
    obtain ⟨init, s, hsplit⟩ : ∃ init s, stk = init ++ [s] :=
      ⟨stk.dropLast, stk.getLast hstk, (List.dropLast_append_getLast hstk).symm⟩
    subst hsplit
    obtain ⟨hne, hns⟩ := h s (by simp)
    by_cases hinit : init = []
    · subst hinit
      rw [List.nil_append, render_single] at hlast
      exact getLast?_ne_slash _ s hne hns hlast
    · rw [render_push _ _ _ hinit] at hlast
      have : render rooted init ++ '/' :: s = (render rooted init ++ ['/']) ++ s := by simp
      rw [this] at hlast
      exact getLast?_ne_slash _ s hne hns hlast

theorem splitSlash_of_no_slash (s : List Char) (hs : '/' ∉ s) : splitSlash s = [s] := by
  induction s with
  | nil => rfl
  | cons c t ih =>
    have hc : c ≠ '/' := fun h => hs (by simp [h])
    have ht : '/' ∉ t := fun h => hs (List.mem_cons_of_mem _ h)
    rw [splitSlash, if_neg hc, ih ht]

/-- Splitting the elements separated by `/` gives the elements back. -/
theorem splitSlash_joined (stk : List (List Char)) (hne : stk ≠ []) (h : ∀ s ∈ stk, '/' ∉ s) :
    splitSlash (joined stk) = stk := by
  induction stk with
  | nil => exact absurd rfl hne
  | cons s rest ih =>
    have hs := h s (List.mem_cons_self _ _)
    cases rest with
    | nil => simp [joined, slashed, splitSlash_of_no_slash s hs]
    | cons s2 rest' =>
      have hrest : ∀ x ∈ s2 :: rest', '/' ∉ x := fun x hx => h x (List.mem_cons_of_mem _ hx)
      have hj : joined (s :: s2 :: rest') = s ++ '/' :: joined (s2 :: rest') := rfl
      rw [hj, splitSlash_append_slash, splitSlash_of_no_slash s hs, ih (by simp) hrest]
      rfl

/-- The segments of a rendered stack: its elements, after the empty segment
in front of the root. -/
theorem splitSlash_render (rooted : Bool) (stk : List (List Char)) (hne : stk ≠ [])
    (h : ∀ s ∈ stk, '/' ∉ s) :
    splitSlash (render rooted stk) = if rooted then [] :: stk else stk := by
  cases rooted with
  | true =>
    have hr : render true stk = '/' :: joined stk := rfl
    rw [hr, splitSlash_slash, splitSlash_joined stk hne h]
    simp
  | false =>
    have hr : render false stk = joined stk := rfl
    rw [hr, splitSlash_joined stk hne h]
    simp

/-- The normal form of `path.Clean`: cleaning again changes nothing, there is
no repeated separator, no trailing `/` except for the root, and no `.`
segment unless the path is `.` itself. -/
theorem Clean_normal_form (x : String) :
    Clean (Clean x) = Clean x ∧
      collapseSlashes (Clean x).data = (Clean x).data ∧
      ((Clean x).data.getLast? = some '/' → Clean x = "/") ∧
      (['.'] ∈ splitSlash (Clean x).data → Clean x = ".") := by
  refine ⟨Clean_idem x, ?_, ?_, ?_⟩
  · show collapseSlashes (cleanChars x.data) = cleanChars x.data
    rcases cleanChars_shape x.data with h | ⟨rooted, stk, h, hnice, _⟩
    · rw [h]
      decide
    · rw [h]
      exact collapseSlashes_render rooted stk (fun s hs => ⟨(hnice s hs).1, (hnice s hs).2.1⟩)
  · intro hlast
    have hlast' : (cleanChars x.data).getLast? = some '/' := hlast
    show String.mk (cleanChars x.data) = "/"
    rcases cleanChars_shape x.data with h | ⟨rooted, stk, h, hnice, _⟩
    · rw [h] at hlast'
      exact absurd hlast' (by decide)
    · rw [h] at hlast' ⊢
      rw [render_getLast? rooted stk (fun s hs => ⟨(hnice s hs).1, (hnice s hs).2.1⟩) hlast']
  · intro hmem
    have hmem' : ['.'] ∈ splitSlash (cleanChars x.data) := hmem
    show String.mk (cleanChars x.data) = "."
    rcases cleanChars_shape x.data with h | ⟨rooted, stk, h, hnice, hstk⟩
    · rw [h]
    · exfalso
      rw [h] at hmem'
      by_cases hne : stk = []
      · subst hne
        cases rooted with
        | true => exact absurd hmem' (by decide)
        | false => exact hstk rfl rfl
      · rw [splitSlash_render rooted stk hne (fun s hs => (hnice s hs).2.1)] at hmem'
        cases rooted with
        | true =>
          rcases List.mem_cons.1 hmem' with h0 | h0
          · exact absurd h0 (by decide)
          · exact (hnice _ h0).2.2 rfl
        | false => exact (hnice _ hmem').2.2 rfl

/-! ## The destination path: absolute, and in normal form -/

theorem IsAbs_iff (p : String) : IsAbs p = true ↔ ∃ t, p.data = '/' :: t := by
  cases p with
  | mk l =>
    cases l with
    | nil => simp [IsAbs]
    | cons c t => simp [IsAbs]

theorem data_ne_nil (d : String) (hd : d ≠ "") : d.data ≠ [] := by
  intro h
  apply hd
  cases d with
  | mk l =>
    simp only at h
    subst h
    rfl

/-- The destination path under a non-empty `DestPath` is the cleaned form of
`DestPath`, a `/` and the remainder. -/
theorem DestinationURL_Path_eq_Clean (RP : String → String → Bool → String)
    (r : Rule) (req : Request) (hsrc : IsAbs r.SourcePath = true) (hdst : r.DestPath ≠ "") :
    (r.DestinationURL RP req).Path =
      Clean (String.mk (r.DestPath.data ++
        '/' :: (RP r.SourcePath (effectivePath r req) r.CaseSensitivePath).data)) := by
  rw [DestinationURL_Path, hsrc, ← Join_pair _ _ hdst]
  simp [hdst]

/-- The destination path is absolute when `DestPath` is empty or absolute. -/
theorem IsAbs_DestinationURL_Path (RP : String → String → Bool → String)
    (r : Rule) (req : Request) (hsrc : IsAbs r.SourcePath = true)
    (hdst : r.DestPath = "" ∨ IsAbs r.DestPath = true) :
    IsAbs (r.DestinationURL RP req).Path = true := by
  rcases hdst with h | h
  · rw [DestinationURL_Path, hsrc, h]
    simp only [if_true]
    rfl
  · have hne : r.DestPath ≠ "" := by
      intro h0
      rw [h0] at h
      exact absurd h (by decide)
    obtain ⟨t, ht⟩ := (IsAbs_iff _).1 h
    rw [DestinationURL_Path_eq_Clean RP r req hsrc hne, IsAbs_Clean, ht]
    rfl

/-- C16: for an absolute `SourcePath` and a `DestPath` that is empty or
absolute, the destination path is absolute, whatever the remainder is: it is
not empty and begins with `/`. -/
theorem DestinationURL_Path_absolute (RP : String → String → Bool → String)
    (r : Rule) (req : Request) (hsrc : IsAbs r.SourcePath = true)
    (hdst : r.DestPath = "" ∨ IsAbs r.DestPath = true) :
    IsAbs (r.DestinationURL RP req).Path = true ∧
      (r.DestinationURL RP req).Path ≠ "" ∧
      ∃ t, (r.DestinationURL RP req).Path.data = '/' :: t := by
  have habs := IsAbs_DestinationURL_Path RP r req hsrc hdst
  refine ⟨habs, ?_, (IsAbs_iff _).1 habs⟩
  intro h
  rw [h] at habs
  exact absurd habs (by decide)

theorem DestinationURL_Path_absolute_witness :
    IsAbs (apiRule.DestinationURL (fun _ _ _ => "../../x/.")
        (serverRequest "a.com" "/api/users" "")).Path = true ∧
      (apiRule.DestinationURL (fun _ _ _ => "../../x/.")
        (serverRequest "a.com" "/api/users" "")).Path ≠ "" ∧
      ∃ t, (apiRule.DestinationURL (fun _ _ _ => "../../x/.")
        (serverRequest "a.com" "/api/users" "")).Path.data = '/' :: t :=
  DestinationURL_Path_absolute (fun _ _ _ => "../../x/.") apiRule
    (serverRequest "a.com" "/api/users" "") (by decide) (Or.inr (by decide))

/-- C17, as the code has it: for an absolute `SourcePath` and a non-empty
`DestPath` the destination path is in the normal form of `path.Clean`:
cleaning it again changes nothing, it has no repeated separator, no trailing
`/` except for the root, and no `.` segment unless the path is `.` itself,
which an absolute `DestPath` excludes.  When the remainder is empty the path is
the cleaned `DestPath`; so `DestPath` `/v2/` yields `/v2`. -/
theorem DestinationURL_Path_normal_form (RP : String → String → Bool → String)
    (r : Rule) (req : Request) (hsrc : IsAbs r.SourcePath = true) (hdst : r.DestPath ≠ "") :
    Clean (r.DestinationURL RP req).Path = (r.DestinationURL RP req).Path ∧
      collapseSlashes (r.DestinationURL RP req).Path.data =
        (r.DestinationURL RP req).Path.data ∧
      ((r.DestinationURL RP req).Path.data.getLast? = some '/' →
        (r.DestinationURL RP req).Path = "/") ∧
      (['.'] ∈ splitSlash (r.DestinationURL RP req).Path.data →
        (r.DestinationURL RP req).Path = ".") ∧
      (IsAbs r.DestPath = true → ['.'] ∉ splitSlash (r.DestinationURL RP req).Path.data) ∧
      (RP r.SourcePath (effectivePath r req) r.CaseSensitivePath = "" →
        (r.DestinationURL RP req).Path = Clean r.DestPath) ∧
      ∀ (r' : Rule) (req' : Request), IsAbs r'.SourcePath = true → r'.DestPath = "/v2/" →
        RP r'.SourcePath (effectivePath r' req') r'.CaseSensitivePath = "" →
        (r'.DestinationURL RP req').Path = "/v2" := by
  have hempty : ∀ (r' : Rule) (req' : Request), IsAbs r'.SourcePath = true →
      r'.DestPath ≠ "" →
      RP r'.SourcePath (effectivePath r' req') r'.CaseSensitivePath = "" →
      (r'.DestinationURL RP req').Path = Clean r'.DestPath := by
    intro r' req' h1 h2 h3
    rw [DestinationURL_Path_eq_Clean RP r' req' h1 h2, h3]
    show String.mk (cleanChars (r'.DestPath.data ++ ['/'])) = String.mk (cleanChars r'.DestPath.data)
    rw [cleanChars_append_slash _ (data_ne_nil _ h2)]
  have hP := DestinationURL_Path_eq_Clean RP r req hsrc hdst
  obtain ⟨n1, n2, n3, n4⟩ := Clean_normal_form (String.mk (r.DestPath.data ++
    '/' :: (RP r.SourcePath (effectivePath r req) r.CaseSensitivePath).data))
  rw [← hP] at n1 n2 n3 n4
  refine ⟨n1, n2, n3, n4, ?_, hempty r req hsrc hdst, ?_⟩
  · intro habs hmem
    have hdot := n4 hmem
    have h1 := IsAbs_DestinationURL_Path RP r req hsrc (Or.inr habs)
    rw [hdot] at h1
    exact absurd h1 (by decide)
  · intro r' req' h1 h2 h3
    have hne : r'.DestPath ≠ "" := by
      rw [h2]
      decide
    rw [hempty r' req' h1 hne h3, h2]
    decide

theorem DestinationURL_Path_normal_form_witness :
    (IsAbs ({ apiRule with DestPath := "/v2/" }).SourcePath = true ∧
        ({ apiRule with DestPath := "/v2/" }).DestPath ≠ "") ∧
      Clean (({ apiRule with DestPath := "/v2/" }).DestinationURL RelativePath
          (serverRequest "a.com" "/api/./x//y/../" "")).Path =
        (({ apiRule with DestPath := "/v2/" }).DestinationURL RelativePath
          (serverRequest "a.com" "/api/./x//y/../" "")).Path ∧
      (({ apiRule with DestPath := "/v2/" }).DestinationURL RelativePath
          (serverRequest "a.com" "/api/./x//y/../" "")).Path = "/v2/x" ∧
      (({ apiRule with DestPath := "/v2/" }).DestinationURL RelativePath
          (serverRequest "a.com" "/api" "")).Path = Clean "/v2/" :=
  ⟨⟨by decide, by decide⟩,
    (DestinationURL_Path_normal_form RelativePath { apiRule with DestPath := "/v2/" }
      (serverRequest "a.com" "/api/./x//y/../" "") (by decide) (by decide)).1,
    by decide,
    (DestinationURL_Path_normal_form RelativePath { apiRule with DestPath := "/v2/" }
      (serverRequest "a.com" "/api" "") (by decide) (by decide)).2.2.2.2.2.1 (by decide)⟩

/-- C17, as stated, fails for a relative `DestPath`: the rule
`a.com/api → .` matches the request `a.com/api`, the remainder is empty, and
the destination path is `.`; cleaning it again changes nothing, yet it is a
`.` segment. -/
theorem DestinationURL_Path_dot_segment :
    (IsAbs ({ apiRule with DestPath := "." }).SourcePath = true ∧
        ({ apiRule with DestPath := "." }).DestPath ≠ "") ∧
      ({ apiRule with DestPath := "." }).MatchesRequest asciiLower (PathContains asciiLower)
        (serverRequest "a.com" "/api" "") = true ∧
      RelativePath ({ apiRule with DestPath := "." }).SourcePath
        (effectivePath { apiRule with DestPath := "." } (serverRequest "a.com" "/api" ""))
        ({ apiRule with DestPath := "." }).CaseSensitivePath = "" ∧
      (({ apiRule with DestPath := "." }).DestinationURL RelativePath
        (serverRequest "a.com" "/api" "")).Path = "." ∧
      Clean (({ apiRule with DestPath := "." }).DestinationURL RelativePath
          (serverRequest "a.com" "/api" "")).Path =
        (({ apiRule with DestPath := "." }).DestinationURL RelativePath
          (serverRequest "a.com" "/api" "")).Path ∧
      ['.'] ∈ splitSlash (({ apiRule with DestPath := "." }).DestinationURL RelativePath
        (serverRequest "a.com" "/api" "")).Path.data := by
  refine ⟨⟨by decide, by decide⟩, by decide, by decide, by decide, by decide, by decide⟩

/-! ## `path.Clean` on a path without `..` segments: the stack only grows -/

theorem mem_splitSlash_dropWhile (x s : List Char)
    (hs : s ∈ splitSlash (x.dropWhile (fun c => c != '/'))) : s = [] ∨ s ∈ splitSlash x := by
  cases hd : x.dropWhile (fun c => c != '/') with
  | nil =>
    rw [hd] at hs
    left
    simpa [splitSlash] using hs
  | cons d y =>
    have hdsl : d = '/' := by
      have hmem := List.head_dropWhile_not (fun c => c != '/') x (by rw [hd]; simp)
      simpa [hd] using hmem
    subst hdsl
    rw [hd, splitSlash_slash] at hs
    rcases List.mem_cons.1 hs with h1 | h1
    · left; exact h1
    · right
      rw [splitSlash_eq, hd]
      exact List.mem_cons_of_mem _ h1

theorem NoDotDot_slash {t : List Char} (h : NoDotDot ('/' :: t)) : NoDotDot t := by
  intro s hs
  apply h
  rw [splitSlash_slash]
  exact List.mem_cons_of_mem _ hs

theorem NoDotDot_dropWhile {x : List Char} (h : NoDotDot x) :
    NoDotDot (x.dropWhile (fun c => c != '/')) := by
  intro s hs
  rcases mem_splitSlash_dropWhile x s hs with h1 | h1
  · rw [h1]
    simp
  · exact h s h1

theorem dropWhile_of_nil_or_head (t : List Char) (h : t = [] ∨ t.head? = some '/') :
    t.dropWhile (fun c => c != '/') = t := by
  cases t with
  | nil => rfl
  | cons d t' =>
    rcases h with h | h
    · simp at h
    · have hd : d = '/' := by simpa using h
      simp [List.dropWhile_cons, hd]

/-- On a path without `..` segments the loop only pushes elements. -/
theorem run_grow (rooted : Bool) :
    ∀ (n : Nat) (b : List Char), b.length ≤ n → NoDotDot b →
      ∀ (k : Nat) (segs : List (List Char)) (out : List Char) (dd : Nat),
        Inv rooted k segs out dd →
        ∃ E, (∀ s ∈ E, Good s) ∧ run rooted b out dd = render rooted (dots k ++ (segs ++ E)) := by
  intro n
  induction n with
  | zero =>
    intro b hlen _ k segs out dd hinv
    have hb : b = [] := List.length_eq_zero.1 (Nat.le_zero.1 hlen)
    subst hb
    exact ⟨[], fun s hs => absurd hs (List.not_mem_nil s), by
      rw [run_nil, List.append_nil]; exact hinv.1⟩
  | succ n ih =>
    intro b hlen hnd k segs out dd hinv
    cases b with
    | nil =>
      exact ⟨[], fun s hs => absurd hs (List.not_mem_nil s), by
        rw [run_nil, List.append_nil]; exact hinv.1⟩
    | cons c t =>
      have ht : t.length ≤ n := by simpa using hlen
      by_cases h1 : c = '/'
      · subst h1
        rw [run_cons, if_pos rfl]
        exact ih t ht (NoDotDot_slash hnd) k segs out dd hinv
      · have hcons : (c :: t).takeWhile (fun x => x != '/') =
            c :: t.takeWhile (fun x => x != '/') := by
          simp [List.takeWhile_cons, h1]
        have hdrop : (c :: t).dropWhile (fun x => x != '/') =
            t.dropWhile (fun x => x != '/') := by
          simp [List.dropWhile_cons, h1]
        have hhead : (c :: t).takeWhile (fun x => x != '/') ≠ ['.', '.'] := by
          apply hnd
          rw [splitSlash_eq]
          exact List.mem_cons_self _ _
        have h3 : ¬ (c = '.' ∧ t.head? = some '.' ∧
            (t.tail = [] ∨ t.tail.head? = some '/')) := by
          rintro ⟨hc, hh, hcase⟩
          apply hhead
          cases t with
          | nil => simp at hh
          | cons d t' =>
            have hd : d = '.' := by simpa using hh
            have hcons2 : (d :: t').takeWhile (fun x => x != '/') =
                d :: t'.takeWhile (fun x => x != '/') := by
              simp [List.takeWhile_cons, hd]
            rw [hcons, hcons2, takeWhile_nil_of_slash t' (by simpa using hcase), hc, hd]
        by_cases h2 : c = '.' ∧ (t = [] ∨ t.head? = some '/')
        · have hnd' : NoDotDot t := by
            have h := NoDotDot_dropWhile hnd
            rw [hdrop, dropWhile_of_nil_or_head t h2.2] at h
            exact h
          rw [run_cons, if_neg h1, if_pos h2]
          exact ih t ht hnd' k segs out dd hinv
        · have hgood := Good_takeWhile c t h1 h2 h3
          have hd : ((c :: t).dropWhile (fun x => x != '/')).length ≤ n :=
            le_trans (dropWhile_length_le c t h1) ht
          obtain ⟨E, hE, hrun⟩ := ih _ hd (NoDotDot_dropWhile hnd) k _ _ dd (hinv.push _ hgood)
          refine ⟨(c :: t).takeWhile (fun x => x != '/') :: E, ?_, ?_⟩
          · intro s hs
            rcases List.mem_cons.1 hs with h | h
            · rw [h]; exact hgood
            · exact hE s h
          · rw [run_cons, if_neg h1, if_neg h2, if_neg h3, hrun]
            simp

/-- The segments of a rendered rooted stack, a trailing empty segment being
ignored: the empty segment in front of the root, then the elements. -/
theorem pathSegments_render_rooted (S : List (List Char)) (h : ∀ s ∈ S, s ≠ [] ∧ '/' ∉ s) :
    pathSegments (String.mk (render true S)) = [] :: S := by
  by_cases hS : S = []
  · subst hS
    decide
  · have hsplit : splitSlash (render true S) = [] :: S := by
      rw [splitSlash_render true S hS (fun s hs => (h s hs).2)]
      simp
    have hlast : ([] :: S).getLast? ≠ some [] := by
      rw [getLast?_cons_of_ne_nil _ _ hS, List.getLast?_eq_getLast _ hS]
      intro heq
      exact (h _ (List.getLast_mem hS)).1 (Option.some.inj heq)
    simp only [pathSegments, hsplit]
    rw [if_neg hlast]

/-- Joining an absolute path with a remainder that has no `..` segment and
cleaning the result stays under the cleaned path. -/
theorem Clean_join_under (d rel : String) (hd : IsAbs d = true) (hrel : NoDotDot rel.data) :
    pathSegments (Clean d) <+:
      pathSegments (Clean (String.mk (d.data ++ '/' :: rel.data))) := by
  obtain ⟨t, ht⟩ := (IsAbs_iff d).1 hd
  obtain ⟨k, segs, out, dd, hinv, hrun, happ⟩ :=
    run_append_slash true t.length t (le_refl _) 0 [] ['/'] 1 Inv_rooted_init
  have hk : k = 0 := hinv.2.2.1 rfl
  subst hk
  obtain ⟨E, hE, hgrow⟩ := run_grow true rel.data.length rel.data (le_refl _) hrel 0 segs out dd
    hinv
  have hgood := hinv.2.2.2
  have h1 : Clean d = String.mk (render true segs) := by
    show String.mk (cleanChars d.data) = _
    rw [ht, (cleanChars_rooted t).1, hrun, hinv.1]
    simp [dots]
  have h2 : Clean (String.mk (d.data ++ '/' :: rel.data)) =
      String.mk (render true (segs ++ E)) := by
    show String.mk (cleanChars (d.data ++ '/' :: rel.data)) = _
    rw [ht, List.cons_append, (cleanChars_rooted _).1, happ, hgrow]
    simp [dots]
  have hall : ∀ s ∈ segs ++ E, s ≠ [] ∧ '/' ∉ s := by
    intro s hs
    rcases List.mem_append.1 hs with h | h
    · exact ⟨(hgood s h).1, (hgood s h).2.1⟩
    · exact ⟨(hE s h).1, (hE s h).2.1⟩
  rw [h1, h2, pathSegments_render_rooted segs (fun s hs => ⟨(hgood s hs).1, (hgood s hs).2.1⟩),
    pathSegments_render_rooted (segs ++ E) hall]
  exact ⟨E, rfl⟩

/-- The remainder of a cleaned absolute path, as the specification describes
`RelativePath`, has no `..` segment. -/
theorem NoDotDot_RelativePath_Clean (s p : String) (cs : Bool) (hp : IsAbs (Clean p) = true) :
    NoDotDot (RelativePath s (Clean p) cs).data := by
  have hp' : IsAbs p = true := by rw [← IsAbs_Clean]; exact hp
  obtain ⟨t, ht⟩ := (IsAbs_iff p).1 hp'
  obtain ⟨h1, segs, hgood, hout⟩ := cleanChars_rooted t
  have hclean : Clean p = String.mk (render true segs) := by
    show String.mk (cleanChars p.data) = _
    rw [ht, h1, hout]
    rfl
  have hsegs : pathSegments (Clean p) = [] :: segs := by
    rw [hclean]
    exact pathSegments_render_rooted segs (fun x hx => ⟨(hgood x hx).1, (hgood x hx).2.1⟩)
  have hdata : (RelativePath s (Clean p) cs).data =
      joined ((pathSegments (Clean p)).drop (pathSegments s).length) := by
    simp only [RelativePath]
    exact intercalate_eq_joined _
  intro seg hseg
  rw [hdata] at hseg
  by_cases hL : (pathSegments (Clean p)).drop (pathSegments s).length = []
  · rw [hL] at hseg
    have : seg = [] := by simpa [joined, splitSlash] using hseg
    rw [this]
    simp
  · rw [splitSlash_joined _ hL (fun x hx =>
      pathSegments_no_slash _ x (List.mem_of_mem_drop hx))] at hseg
    have hmem : seg ∈ ([] : List Char) :: segs := by
      rw [← hsegs]
      exact List.mem_of_mem_drop hseg
    rcases List.mem_cons.1 hmem with h | h
    · rw [h]
      simp
    · exact (hgood seg h).2.2.2

/-- C15, as the code has it: for an absolute `SourcePath` and an absolute
`DestPath`, the destination path stays under the cleaned `DestPath` (its
segments begin with those of the cleaned `DestPath`) whenever the remainder
has no `..` segment; with `PathContains` and `RelativePath` as the
specification describes them, this covers every matched request when
`CleanRequestPath` is set. -/
theorem DestinationURL_Path_under_DestPath (ToLower : String → String)
    (RP : String → String → Bool → String) (r : Rule) (req : Request)
    (hsrc : IsAbs r.SourcePath = true) (hdst : IsAbs r.DestPath = true) :
    (NoDotDot (RP r.SourcePath (effectivePath r req) r.CaseSensitivePath).data →
        pathSegments (Clean r.DestPath) <+: pathSegments (r.DestinationURL RP req).Path) ∧
      (r.CleanRequestPath = true →
        r.MatchesRequest ToLower (PathContains ToLower) req = true →
        pathSegments (Clean r.DestPath) <+:
          pathSegments (r.DestinationURL RelativePath req).Path) := by
  have hne : r.DestPath ≠ "" := by
    intro h0
    rw [h0] at hdst
    exact absurd hdst (by decide)
  have hgen : ∀ RP' : String → String → Bool → String,
      NoDotDot (RP' r.SourcePath (effectivePath r req) r.CaseSensitivePath).data →
      pathSegments (Clean r.DestPath) <+: pathSegments (r.DestinationURL RP' req).Path := by
    intro RP' hnd
    rw [DestinationURL_Path_eq_Clean RP' r req hsrc hne]
    exact Clean_join_under _ _ hdst hnd
  refine ⟨hgen RP, fun hclean hmatch => hgen RelativePath ?_⟩
  have heff : effectivePath r req = Clean req.URL.Path := by
    simp [effectivePath, hclean]
  rw [MatchesRequest_eq, hsrc] at hmatch
  have habs : IsAbs (effectivePath r req) = true := by
    simp at hmatch
    exact hmatch.2.1
  rw [heff] at habs ⊢
  exact NoDotDot_RelativePath_Clean _ _ _ habs

theorem DestinationURL_Path_under_DestPath_witness :
    (IsAbs ({ apiRule with CleanRequestPath := true }).SourcePath = true ∧
        IsAbs ({ apiRule with CleanRequestPath := true }).DestPath = true) ∧
      pathSegments (Clean ({ apiRule with CleanRequestPath := true }).DestPath) <+:
        pathSegments (({ apiRule with CleanRequestPath := true }).DestinationURL RelativePath
          (serverRequest "a.com" "/api/./x//y" "")).Path ∧
      pathSegments (Clean ({ apiRule with CleanRequestPath := true }).DestPath) <+:
        pathSegments (({ apiRule with CleanRequestPath := true }).DestinationURL RelativePath
          (serverRequest "a.com" "/api/../api/x/../y" "")).Path :=
  ⟨⟨by decide, by decide⟩,
    (DestinationURL_Path_under_DestPath asciiLower RelativePath
      { apiRule with CleanRequestPath := true } (serverRequest "a.com" "/api/./x//y" "")
      (by decide) (by decide)).1 (by decide),
    (DestinationURL_Path_under_DestPath asciiLower RelativePath
      { apiRule with CleanRequestPath := true } (serverRequest "a.com" "/api/../api/x/../y" "")
      (by decide) (by decide)).2 (by decide) (by decide)⟩

/-- C15, as stated, fails with `CleanRequestPath` false: the rule
`a.com/api → http://b.internal/v2` matches the request `a.com/api/../secret`
and forwards it to the path `/secret`, which is not under `/v2`. -/
theorem DestinationURL_Path_outside_DestPath :
    (IsAbs apiRule.SourcePath = true ∧ IsAbs apiRule.DestPath = true ∧
        apiRule.DestPath ≠ "" ∧ apiRule.CleanRequestPath = false) ∧
      apiRule.MatchesRequest asciiLower (PathContains asciiLower)
        (serverRequest "a.com" "/api/../secret" "") = true ∧
      (apiRule.DestinationURL RelativePath (serverRequest "a.com" "/api/../secret" "")).Path =
        "/secret" ∧
      pathSegments (Clean apiRule.DestPath) = [[], ['v', '2']] ∧
      pathSegments (apiRule.DestinationURL RelativePath
        (serverRequest "a.com" "/api/../secret" "")).Path =
        [[], ['s', 'e', 'c', 'r', 'e', 't']] ∧
      ¬ (pathSegments (Clean apiRule.DestPath) <+:
        pathSegments (apiRule.DestinationURL RelativePath
          (serverRequest "a.com" "/api/../secret" "")).Path) := by
  refine ⟨⟨by decide, by decide, by decide, by decide⟩, by decide, by decide, by decide,
    by decide, ?_⟩
  have h1 : pathSegments (Clean apiRule.DestPath) = [[], ['v', '2']] := by decide
  have h2 : pathSegments (apiRule.DestinationURL RelativePath
      (serverRequest "a.com" "/api/../secret" "")).Path =
      [[], ['s', 'e', 'c', 'r', 'e', 't']] := by decide
  rw [h1, h2]
  simp

/-! ## The Path Relativizer of the specification -/

end reverseproxy
